import Mathlib

/-!
# NoiseGenerator: emitter (`NoiseEmitter.cpp`) and receiver (`NoiseReceiver.cpp`)

A shallow embedding of the two programs.  Machine integers are `Nat`/`Int`
with the wrap-around written out (`% 2 ^ 64` for `size_t`, `toInt32` for a
narrowing to `int`).  Loops that wait on the outside world (send, recv,
accept) run over the results the world hands back.
-/

/-- Narrowing conversion of an integer value to a 32-bit `int`
(`static_cast<int>` and the implicit `long` to `int` conversions). -/
def toInt32 (x : Int) : Int := (x + 2 ^ 31) % 2 ^ 32 - 2 ^ 31

/-- Conversion of a signed value to `size_t` (64-bit unsigned). -/
def toSizeT (x : Int) : Nat := (x % 2 ^ 64).toNat

namespace NoiseEmitter

def TRANSMIT_INTERVAL_MILLISECONDS : Nat := 50
def MILLISECONDS_PER_SECOND : Nat := 1000

/-- What one call of `send` does: the value it returns and the wall-clock
milliseconds that pass until it returns. -/
structure SendCall where
  sent : Int
  msecs : Nat
deriving DecidableEq, Repr

/-- The network as the emitter sees it: the outcome of the `k`-th call of
`send` (counted from 0) when asked to write `n` bytes. -/
abbrev Net := Nat → Nat → SendCall

/-- The ideal network: every send takes no time and writes the whole request. -/
def idealNet : Net := fun _ n => { sent := n, msecs := 0 }

/-- A network on which every send writes the whole request; the `k`-th send takes
`cost k` milliseconds. -/
def timedNet (cost : Nat → Nat) : Net := fun k n => { sent := n, msecs := cost k }

/-- A network that answers the successive sends with the listed results, in no time
(and with -1 once the list is used up). -/
def resultsNet (results : List Int) : Net := fun k _ => { sent := results.getD k (-1), msecs := 0 }

/-- State of the pacing loop of `main`.  Times are milliseconds since `begin`;
`written` and `chunks` count what has gone out, `remains` lists the values of `remain`
computed so far and `sleeps` the arguments of the `sleep_for` calls made so far
(latest first). -/
structure Emitter where
  clock : Nat
  calls : Nat
  written : Nat
  chunks : Nat
  startTransmit : Nat
  endTransmit : Nat
  remains : List Int
  sleeps : List Nat
deriving DecidableEq, Repr

/-- How `main` leaves the pacing loop. -/
inductive Exit where
  | finished (s : Emitter)
  | transmitFailed (s : Emitter)
deriving DecidableEq, Repr

/-- State at `auto begin = now(); startTransmit = begin; endTransmit = begin`. -/
def Emitter.init : Emitter :=
  { clock := 0, calls := 0, written := 0, chunks := 0,
    startTransmit := 0, endTransmit := 0, remains := [], sleeps := [] }

/-- The inner loop `while (bytesToWrite > 0) { sent = send(..); if (sent < 0) return; bytesToWrite -= sent; }`.
`none`: the fuel ran out with bytes still to write; `some (Except.error s)`: a send failed. -/
def sendLoop (net : Net) : Nat → Emitter → Nat → Option (Except Emitter Emitter)
  | _, s, 0 => some (.ok s)
  | 0, _, _ + 1 => none
  | fuel + 1, s, b + 1 =>
    let c := net s.calls (b + 1)
    let s1 := { s with clock := s.clock + c.msecs, calls := s.calls + 1 }
    if c.sent < 0 then some (.error s1)
    else sendLoop net fuel { s1 with written := s1.written + c.sent.toNat }
      (toSizeT ((b + 1 : Nat) - c.sent))

/-- Whether the loop is left or goes round again. -/
inductive Paced where
  | stop (s : Emitter)
  | goOn (s : Emitter)
deriving DecidableEq, Repr

/-- Lines 119-132, what follows a fully sent chunk: read the clock, stop when
`elapsed >= arg.duration`, otherwise compute `remain` (an `int`) and sleep when it is positive. -/
def afterChunk (duration : Int) (s1 : Emitter) : Paced :=
  let s2 := { s1 with chunks := s1.chunks + 1,
                      startTransmit := s1.endTransmit, endTransmit := s1.clock }
  let elapsed : Int := s2.endTransmit
  if elapsed ≥ duration then .stop s2
  else
    let remain : Int :=
      toInt32 ((TRANSMIT_INTERVAL_MILLISECONDS : Int) - ((s2.endTransmit : Int) - s2.startTransmit))
    let s3 := { s2 with remains := remain :: s2.remains }
    if remain > 0 then
      .goOn { s3 with clock := s3.clock + remain.toNat, sleeps := remain.toNat :: s3.sleeps }
    else .goOn s3

/-- The outer `while (true)` loop of `main` (lines 105-133): send one chunk, then `afterChunk`. -/
def mainLoop (net : Net) (bytesPerInterval : Nat) (duration : Int) : Nat → Emitter → Option Exit
  | 0, _ => none
  | fuel + 1, s =>
    match sendLoop net (fuel + 1) s bytesPerInterval with
    | none => none
    | some (.error s1) => some (.transmitFailed s1)
    | some (.ok s1) =>
      match afterChunk duration s1 with
      | .stop s2 => some (.finished s2)
      | .goOn s3 => mainLoop net bytesPerInterval duration fuel s3

/-- State after one chunk went out on `timedNet cost` (a single `send`, none for an empty
chunk). -/
def timedChunk (cost : Nat → Nat) (bpi : Nat) (s : Emitter) : Emitter :=
  { clock := if bpi = 0 then s.clock else s.clock + cost s.calls,
    calls := if bpi = 0 then s.calls else s.calls + 1,
    written := s.written + bpi, chunks := s.chunks,
    startTransmit := s.startTransmit, endTransmit := s.endTransmit,
    remains := s.remains, sleeps := s.sleeps }

/-- A sequence of send results that writes a chunk of `n` bytes: every result is at least 1
and at most the bytes still to write, and the sequence ends when nothing is left. -/
def fillsChunk : List Int → Nat → Bool
  | [], n => n == 0
  | r :: rs, n => decide (1 ≤ r) && decide (r ≤ n) && fillsChunk rs (n - r.toNat)

/-- A sequence of send results of the same kind that leaves part of the chunk unwritten. -/
def partChunk : List Int → Nat → Bool
  | [], n => decide (0 < n)
  | r :: rs, n => decide (1 ≤ r) && decide (r ≤ n) && partChunk rs (n - r.toNat)

/-- Chunk size, line 99:
`size_t bytesPerInterval = arg.byterate * TRANSMIT_INTERVAL_MILLISECONDS / MILLISECONDS_PER_SECOND / 2;`
in `size_t` arithmetic. -/
def bytesPerInterval (byterate : Nat) : Nat :=
  (byterate * TRANSMIT_INTERVAL_MILLISECONDS) % 2 ^ 64 / MILLISECONDS_PER_SECOND / 2

/-- The pacing part of `main` (lines 99-133) for a configured byte rate and duration. -/
def pacedRun (net : Net) (byterate : Nat) (duration : Int) (fuel : Nat) : Option Exit :=
  mainLoop net (bytesPerInterval byterate) duration fuel Emitter.init

end NoiseEmitter


/-! ## IEEE-754 binary64 (`double`) -/

/-- Number of binary digits of `n`, by halving (at most `fuel` times). -/
def bitsAux : Nat → Nat → Nat
  | 0, _ => 0
  | fuel + 1, n => if n = 0 then 0 else bitsAux fuel (n / 2) + 1

/-- Number of binary digits of `n` (`0` for `n = 0`). -/
def bits (n : Nat) : Nat := bitsAux n n

/-- A `double`.  `finite neg m e` is the value `(-1) ^ neg * m * 2 ^ e`, kept in the form the
format stores: `m < 2 ^ 53`, `-1074 ≤ e ≤ 971`, and `2 ^ 52 ≤ m` unless `e = -1074`
(subnormals and zero). -/
inductive Double where
  | finite (neg : Bool) (m : Nat) (e : Int)
  | inf (neg : Bool)
  | nan
deriving DecidableEq, Repr

/-- The quotient `a / b` rounded to the nearest integer, ties to the even one. -/
def roundHalfEven (a b : Nat) : Nat :=
  let q := a / b
  let r := a % b
  if 2 * r < b then q else if b < 2 * r then q + 1 else if q % 2 = 0 then q else q + 1

/-- Whether `2 ^ d ≤ a / b`. -/
def pow2le (d : Int) (a b : Nat) : Bool :=
  if 0 ≤ d then decide (b * 2 ^ d.toNat ≤ a) else decide (b ≤ a * 2 ^ (-d).toNat)

/-- The binary exponent of `a / b`: the `k` with `2 ^ k ≤ a / b < 2 ^ (k + 1)` (for `a, b > 0`). -/
def expo (a b : Nat) : Int :=
  let d : Int := (bits a : Int) - bits b
  if pow2le d a b then d else d - 1

namespace Double

/-- Positive zero. -/
def zero : Double := .finite false 0 (-1074)

/-- The `double` nearest to `a / b` (round to nearest, ties to even), with sign `neg`;
infinite when the rounded value exceeds the largest finite `double`.  For `b > 0`. -/
def ofRatio (neg : Bool) (a b : Nat) : Double :=
  if a = 0 then .finite neg 0 (-1074) else
    let e : Int := max (expo a b - 52) (-1074)
    let m := if 0 ≤ e then roundHalfEven a (b * 2 ^ e.toNat)
             else roundHalfEven (a * 2 ^ (-e).toNat) b
    let e1 := if m = 2 ^ 53 then e + 1 else e
    let m1 := if m = 2 ^ 53 then 2 ^ 52 else m
    if 971 < e1 then .inf neg else .finite neg m1 e1

/-- The `double` nearest to `m * 2 ^ e`. -/
def ofScaled (neg : Bool) (m : Nat) (e : Int) : Double :=
  if 0 ≤ e then ofRatio neg (m * 2 ^ e.toNat) 1 else ofRatio neg m (2 ^ (-e).toNat)

/-- Conversion of an unsigned integer: `static_cast<double>(n)`. -/
def ofNat (n : Nat) : Double := ofRatio false n 1

/-- The comparison `x <= 0.0` (false for NaN). -/
def le0 : Double → Bool
  | .finite neg m _ => neg || m == 0
  | .inf neg => neg
  | .nan => false

/-- The product `x * y`, rounded. -/
def mul : Double → Double → Double
  | .nan, _ => .nan
  | _, .nan => .nan
  | .inf s, .inf t => .inf (xor s t)
  | .inf s, .finite t m _ => if m = 0 then .nan else .inf (xor s t)
  | .finite s m _, .inf t => if m = 0 then .nan else .inf (xor s t)
  | .finite s1 m1 e1, .finite s2 m2 e2 => ofScaled (xor s1 s2) (m1 * m2) (e1 + e2)

/-- The quotient `x / y`, rounded; `none` when the divisor is zero (a division by zero). -/
def div : Double → Double → Option Double
  | .finite _ _ _, .finite _ 0 _ => none
  | .inf _, .finite _ 0 _ => none
  | .nan, .finite _ 0 _ => none
  | .nan, _ => some .nan
  | _, .nan => some .nan
  | .inf _, .inf _ => some .nan
  | .inf s, .finite t _ _ => some (.inf (xor s t))
  | .finite s _ _, .inf t => some (.finite (xor s t) 0 (-1074))
  | .finite s1 m1 e1, .finite s2 m2 e2 =>
    some (if 0 ≤ e1 - e2 then ofRatio (xor s1 s2) (m1 * 2 ^ (e1 - e2).toNat) m2
          else ofRatio (xor s1 s2) m1 (m2 * 2 ^ (e2 - e1).toNat))

/-- Truncating conversion `static_cast<size_t>(x)`; `none` where the truncated value is not
representable in `size_t` (undefined behaviour: NaN, infinities, values `≤ -1` or `≥ 2 ^ 64`). -/
def toSizeT : Double → Option Nat
  | .finite neg m e =>
    let t := if 0 ≤ e then m * 2 ^ e.toNat else m / 2 ^ (-e).toNat
    if neg then (if t = 0 then some 0 else none)
    else if t < 2 ^ 64 then some t else none
  | _ => none

/-- The `double` that is exactly `n * 2 ^ j`, for `0 < n < 2 ^ 53` and `j` in the range of
normal numbers: the mantissa is `n` shifted up to 53 bits. -/
def dyadic (neg : Bool) (n : Nat) (j : Int) : Double :=
  .finite neg (n * 2 ^ (53 - bits n)) ((bits n : Int) - 53 + j)

/-- The rational number a finite `double` stands for. -/
def value : Double → Option ℚ
  | .finite neg m e => some ((if neg then -1 else 1) * (m : ℚ) * (2 : ℚ) ^ e)
  | _ => none

end Double

namespace NoiseReceiver

def BUFFER_SIZE : Nat := 150000000
def MILLISECONDS_PER_SECOND : Nat := 1000
def CHAR_BIT : Nat := 8

/-- `double GetBitrate(size_t bytes, size_t msecs)`.  The product is taken in `size_t`;
`none` would be a division by zero. -/
def GetBitrate (bytes msecs : Nat) : Option Double :=
  if msecs > 0 then
    Double.div (Double.ofNat (((bytes * CHAR_BIT) % 2 ^ 64 * MILLISECONDS_PER_SECOND) % 2 ^ 64))
      (Double.ofNat msecs)
  else some Double.zero

/-- The receive loop of `ThreadFunc` (lines 142-150) over the values returned by the
successive calls of `recv`; `received` is an `int`, `totalReceived` a `size_t`.
`none`: the results ran out with the loop still reading. -/
def recvLoop : List Int → Nat → Option Nat
  | [], _ => none
  | r :: rs, totalReceived =>
    let received := toInt32 r
    if received ≤ 0 then some totalReceived
    else recvLoop rs ((totalReceived + toSizeT received) % 2 ^ 64)

/-- What `ThreadFunc` hands to `GetBitrate` and what it prints. -/
structure Report where
  bytes : Nat
  msecs : Nat
  bitrate : Option Double
deriving DecidableEq, Repr

/-- `ThreadFunc` over the results of its `recv` calls and the signed count of milliseconds
`totalElapsed` between `begin` and `end`. -/
def ThreadFunc (recvs : List Int) (totalElapsed : Int) : Option Report :=
  match recvLoop recvs 0 with
  | none => none
  | some totalReceived =>
    some { bytes := totalReceived, msecs := toSizeT totalElapsed,
           bitrate := GetBitrate totalReceived (toSizeT totalElapsed) }

/-- A `std::thread` object: joinable once it has been given a function to run, until
`join` or `detach` is called on it. -/
structure Thread where
  joinable : Bool
deriving DecidableEq, Repr

/-- `std::thread t(f, args...)`. -/
def Thread.start : Thread := { joinable := true }

/-- State of the receiver process in its accept loop: whether it is still running, the
sockets for which a handler thread was started (oldest first), and how many times it
logged a failed accept. -/
structure Acceptor where
  running : Bool
  handlers : List Int
  failures : Nat
deriving DecidableEq, Repr

def Acceptor.init : Acceptor := { running := true, handlers := [], failures := 0 }

/-- End of scope of a `std::thread`: the destructor calls `std::terminate` when the thread
is still joinable. -/
def Thread.destroy (t : Thread) (s : Acceptor) : Acceptor :=
  if t.joinable then { s with running := false } else s

/-- One pass of the accept loop of `main` (lines 117-128) for the value returned by `accept`. -/
def acceptStep (s : Acceptor) (hClient : Int) : Acceptor :=
  if hClient = -1 then { s with failures := s.failures + 1 }
  else
    let t := Thread.start
    let s1 := { s with handlers := s.handlers ++ [hClient] }
    t.destroy s1

/-- The accept loop over the values returned by the successive calls of `accept`; it goes on
only while the process is running. -/
def acceptLoop : Acceptor → List Int → Acceptor
  | s, [] => s
  | s, r :: rs => if s.running then acceptLoop (acceptStep s r) rs else s

end NoiseReceiver

/-! ## Argument parsing of the emitter (`ParseArgs`, `ParseInt`) -/

namespace NoiseEmitter

/-- Outcome of `std::stoul` and `std::stod`: one of the two exceptions, or the converted
value and the number of characters processed (`*idx`). -/
inductive Sto (α : Type) where
  | invalid_argument
  | out_of_range
  | ok (val : α) (idx : Nat)
deriving DecidableEq, Repr

/-- The library functions `ParseArgs` calls.  `inet_aton` and `gethostbyname` give the
address (`none` for a return value of 0, respectively a null pointer). -/
structure Lib where
  stoul : List Char → Sto Nat
  stod : List Char → Sto Double
  inet_aton : List Char → Option Nat
  gethostbyname : List Char → Option Nat

/-- `struct Arg`; `sin_addr` and `sin_port` are the two fields of `address` that are set. -/
structure Arg where
  sin_addr : Nat
  sin_port : Nat
  port : Int
  socketType : Int
  byterate : Nat
  duration : Int
deriving DecidableEq, Repr

def ARG_NUMBER : Nat := 6
def CHAR_BIT : Nat := 8
def SOCK_STREAM : Int := 1
def SOCK_DGRAM : Int := 2

/-- How `ParseArgs` can end other than by returning: with one of its `throw "..."`, or in
undefined behaviour (a conversion of a `double` that `size_t` cannot hold). -/
inductive Failure where
  | insufficientArguments
  | invalidServerPort
  | unresolvedServerName
  | invalidProtocol
  | invalidBitrate
  | invalidDuration
  | undefinedBehaviour
deriving DecidableEq, Repr

/-- `int ParseInt(string str)`; `none` when it throws (from `stoul`, or `throw 1`). -/
def ParseInt (lib : Lib) (str : List Char) : Option Int :=
  match lib.stoul str with
  | .ok v num =>
    let res := toInt32 (v : Int)
    if num < str.length then none else some res
  | _ => none

/-- `htons` of an `int` port: truncated to 16 bits, bytes swapped. -/
def htons (port : Int) : Nat :=
  let p := (port % 2 ^ 16).toNat
  (p % 256) * 256 + p / 256

/-- `buf.size() - 1` in `size_t`. -/
def lastIndexOf (buf : List Char) : Nat :=
  if buf.length = 0 then 2 ^ 64 - 1 else buf.length - 1

/-- The literal `1000.0`. -/
def d1000 : Double := Double.ofNat 1000

/-- The `switch (buf[lastIndex])` of lines 215-239: the scaled value, `none` for `default`. -/
def scaleBySuffix (c : Char) (val : Double) : Option Double :=
  if c = 'G' ∨ c = 'g' then some (val.mul ((d1000.mul d1000).mul d1000))
  else if c = 'M' ∨ c = 'm' then some (val.mul (d1000.mul d1000))
  else if c = 'K' ∨ c = 'k' then some (val.mul d1000)
  else none

/-- The `[BITRATE]` block of `ParseArgs` (lines 203-247) for the argument `buf`; the result
is the value of `arg.byterate` after the block (`byterate0` before it). -/
def parseBitrate (lib : Lib) (buf : List Char) (byterate0 : Nat) : Except Failure Nat :=
  match lib.stod buf with
  | .ok val num =>
    let lastIndex := lastIndexOf buf
    if val.le0 = true ∨ num < lastIndex then .error .invalidBitrate
    else if num = lastIndex then
      match scaleBySuffix (buf.getD lastIndex (Char.ofNat 0)) val with
      | none => .error .invalidBitrate
      | some scaled =>
        match scaled.div (Double.ofNat CHAR_BIT) with
        | none => .error .undefinedBehaviour
        | some bytes =>
          match bytes.toSizeT with
          | none => .error .undefinedBehaviour
          | some r => .ok r
    else .ok byterate0
  | _ => .error .invalidBitrate

/-- The `[DURATION]` block of `ParseArgs` (lines 250-261); the product is an `int`. -/
def parseDuration (lib : Lib) (str : List Char) : Except Failure Int :=
  match ParseInt lib str with
  | none => .error .invalidDuration
  | some n =>
    let duration := toInt32 (n * 1000)
    if duration ≤ 0 then .error .invalidDuration else .ok duration

/-- `void ParseArgs(int argc, char *argv[], Arg& arg)` with `argc = argv.length`. -/
def ParseArgs (lib : Lib) (argv : List (List Char)) : Except Failure Arg :=
  if argv.length < ARG_NUMBER then .error .insufficientArguments
  else
    match ParseInt lib (argv.getD 2 []) with
    | none => .error .invalidServerPort
    | some port =>
      match (match lib.inet_aton (argv.getD 1 []) with
             | some a => some a
             | none => lib.gethostbyname (argv.getD 1 [])) with
      | none => .error .unresolvedServerName
      | some addr =>
        match (if argv.getD 3 [] = "tcp".toList then some SOCK_STREAM
               else if argv.getD 3 [] = "udp".toList then some SOCK_DGRAM else none) with
        | none => .error .invalidProtocol
        | some socketType =>
          match parseBitrate lib (argv.getD 4 []) 0 with
          | .error f => .error f
          | .ok byterate =>
            match parseDuration lib (argv.getD 5 []) with
            | .error f => .error f
            | .ok duration =>
              .ok { sin_addr := addr, sin_port := htons port, port := port,
                    socketType := socketType, byterate := byterate, duration := duration }

end NoiseEmitter

/-! ## The library functions: `std::stoul` and `std::stod` on a C locale -/

namespace NoiseEmitter

/-- `isspace` in the C locale. -/
def isSpace (c : Char) : Bool := c.toNat == 32 || (9 ≤ c.toNat && c.toNat ≤ 13)

/-- Value of a string of decimal digits. -/
def digitsValue (ds : List Char) : Nat := ds.foldl (fun acc c => 10 * acc + (c.toNat - 48)) 0

/-- An optional sign: whether it is `-`, and what follows it. -/
def splitSign : List Char → Bool × List Char
  | '-' :: r => (true, r)
  | '+' :: r => (false, r)
  | r => (false, r)

/-- `std::stoul(str, &idx)` (base 10): white space, an optional sign, decimal digits. A
negative input is negated in `unsigned long`, as `strtoul` does. -/
def stoul (str : List Char) : Sto Nat :=
  let s1 := str.dropWhile isSpace
  let sg := splitSign s1
  let ds := sg.2.takeWhile Char.isDigit
  let rest := sg.2.dropWhile Char.isDigit
  if ds.isEmpty then .invalid_argument
  else
    let v := digitsValue ds
    if 2 ^ 64 ≤ v then .out_of_range
    else .ok (if sg.1 then (2 ^ 64 - v) % 2 ^ 64 else v) (str.length - rest.length)

/-- Value of a hexadecimal digit. -/
def hexDigit (c : Char) : Option Nat :=
  if c.isDigit then some (c.toNat - 48)
  else if 97 ≤ c.toNat ∧ c.toNat ≤ 102 then some (c.toNat - 87)
  else if 65 ≤ c.toNat ∧ c.toNat ≤ 70 then some (c.toNat - 55)
  else none

/-- Value of a string of hexadecimal digits. -/
def hexValue (ds : List Char) : Nat := ds.foldl (fun acc c => 16 * acc + (hexDigit c).getD 0) 0

/-- Whether `s` starts with the lower-case word `w`, letter case ignored. -/
def startsWithWord (s w : List Char) : Bool := (s.take w.length).map Char.toLower == w

/-- An exponent part `e[sign]digits` (or `p[sign]digits` for `mark = p`) in front of `s`: its
value and what follows it; no exponent (value 0, nothing consumed) when the digits are
missing. -/
def exponentPart (mark : Char) (s : List Char) : Int × List Char :=
  match s with
  | c :: t =>
    if c.toLower = mark then
      let sg := splitSign t
      let ed := sg.2.takeWhile Char.isDigit
      if ed.isEmpty then (0, s)
      else ((if sg.1 then -(digitsValue ed : Int) else digitsValue ed), sg.2.dropWhile Char.isDigit)
    else (0, s)
  | [] => (0, s)

/-- A converted magnitude `n * base ^ sc`, rounded, or a range error: `strtod` reports
`ERANGE` when the value overflows and when a nonzero value underflows. -/
def rounded (neg : Bool) (n base : Nat) (sc : Int) : Option Double :=
  let v := if 0 ≤ sc then Double.ofRatio neg (n * base ^ sc.toNat) 1
           else Double.ofRatio neg n (base ^ (-sc).toNat)
  match v with
  | .finite _ m _ => if n ≠ 0 ∧ m < 2 ^ 52 then none else some v
  | _ => none

/-- The number at the front of `s` (after white space and sign) as `strtod` reads it:
`inf`, `infinity`, `nan`, a hexadecimal or a decimal floating constant.  `none`: no number;
otherwise the value (`none` for a range error) and what follows the number. -/
def stodBody (neg : Bool) (s : List Char) : Option (Option Double × List Char) :=
  if startsWithWord s "infinity".toList then some (some (.inf neg), s.drop 8)
  else if startsWithWord s "inf".toList then some (some (.inf neg), s.drop 3)
  else if startsWithWord s "nan".toList then
    let t := s.drop 3
    match t with
    | '(' :: u =>
      let w := u.dropWhile (fun c => c.isAlphanum || c == '_')
      match w with
      | ')' :: x => some (some .nan, x)
      | _ => some (some .nan, t)
    | _ => some (some .nan, t)
  else
    let hexBody := s.drop 2
    let hip := hexBody.takeWhile (fun c => (hexDigit c).isSome)
    let h1 := hexBody.dropWhile (fun c => (hexDigit c).isSome)
    let hfp := match h1 with
      | '.' :: t => t.takeWhile (fun c => (hexDigit c).isSome)
      | _ => []
    let h2 := match h1 with
      | '.' :: t => t.dropWhile (fun c => (hexDigit c).isSome)
      | _ => h1
    if startsWithWord s "0x".toList ∧ ¬ (hip.isEmpty ∧ hfp.isEmpty) then
      let ex := exponentPart 'p' h2
      some (rounded neg (hexValue (hip ++ hfp)) 2 (ex.1 - 4 * hfp.length), ex.2)
    else
      let ip := s.takeWhile Char.isDigit
      let r1 := s.dropWhile Char.isDigit
      let fp := match r1 with
        | '.' :: t => t.takeWhile Char.isDigit
        | _ => []
      let r2 := match r1 with
        | '.' :: t => t.dropWhile Char.isDigit
        | _ => r1
      if ip.isEmpty ∧ fp.isEmpty then none
      else
        let ex := exponentPart 'e' r2
        some (rounded neg (digitsValue (ip ++ fp)) 10 (ex.1 - fp.length), ex.2)

/-- `std::stod(str, &idx)`. -/
def stod (str : List Char) : Sto Double :=
  let sg := splitSign (str.dropWhile isSpace)
  match stodBody sg.1 sg.2 with
  | none => .invalid_argument
  | some (none, _) => .out_of_range
  | some (some v, rest) => .ok v (str.length - rest.length)

/-- A host for trying `ParseArgs` out: the standard `stoul` and `stod`, an `inet_aton` that
knows the one address `127.0.0.1`, and a resolver that knows no name. -/
def testLib : Lib :=
  { stoul := stoul, stod := stod,
    inet_aton := fun s => if s = "127.0.0.1".toList then some 2130706433 else none,
    gethostbyname := fun _ => none }

end NoiseEmitter

-- ==== proofs ====

namespace NoiseEmitter

theorem toSizeT_zero : toSizeT 0 = 0 := by decide

/-- On a network that writes whole requests one `send` sends the chunk. -/
theorem sendLoop_timed (cost : Nat → Nat) (fuel : Nat) (s : Emitter) (b : Nat) :
    sendLoop (timedNet cost) (fuel + 1) s b =
      some (.ok (if b = 0 then s else
        { s with clock := s.clock + cost s.calls, calls := s.calls + 1,
                 written := s.written + b })) := by
  cases b with
  | zero => simp [sendLoop]
  | succ n =>
    have h : ¬ ((n : Int) + 1 < 0) := by omega
    simp [sendLoop, timedNet, h, toSizeT_zero]

theorem idealNet_eq : idealNet = timedNet (fun _ => 0) := rfl

/-- What `afterChunk` computes when the chunk does not end the run and the interval since
the previous clock reading fits an `int`. -/
theorem afterChunk_goOn (D : Int) (s1 : Emitter) (hD : ¬ ((s1.clock : Int) ≥ D))
    (hle : s1.endTransmit ≤ s1.clock) (hfit : (s1.clock : Int) - s1.endTransmit < 2 ^ 31) :
    ∃ s3, afterChunk D s1 = .goOn s3 ∧ s3.startTransmit = s1.endTransmit ∧
      s3.endTransmit = s1.clock ∧ s3.clock = max s1.clock (s1.endTransmit + 50) ∧
      s3.calls = s1.calls ∧ s3.written = s1.written ∧ s3.chunks = s1.chunks + 1 ∧
      s3.remains = (50 - ((s1.clock : Int) - s1.endTransmit)) :: s1.remains ∧
      s3.sleeps = if s1.clock < s1.endTransmit + 50
        then (s1.endTransmit + 50 - s1.clock) :: s1.sleeps else s1.sleeps := by
  have hr : toInt32 (50 - ((s1.clock : Int) - s1.endTransmit)) =
      50 - ((s1.clock : Int) - s1.endTransmit) := by unfold toInt32; omega
  by_cases hpos : 50 - ((s1.clock : Int) - s1.endTransmit) > 0
  · have h : afterChunk D s1 = .goOn
        { clock := s1.clock + (50 - ((s1.clock : Int) - s1.endTransmit)).toNat,
          calls := s1.calls, written := s1.written, chunks := s1.chunks + 1,
          startTransmit := s1.endTransmit, endTransmit := s1.clock,
          remains := (50 - ((s1.clock : Int) - s1.endTransmit)) :: s1.remains,
          sleeps := (50 - ((s1.clock : Int) - s1.endTransmit)).toNat :: s1.sleeps } := by
      simp only [afterChunk, hD, if_false, TRANSMIT_INTERVAL_MILLISECONDS,
        Nat.cast_ofNat, hr, hpos, if_true]
    refine ⟨_, h, rfl, rfl, ?_, rfl, rfl, rfl, rfl, ?_⟩
    · show s1.clock + (50 - ((s1.clock : Int) - s1.endTransmit)).toNat = _
      omega
    · show (50 - ((s1.clock : Int) - s1.endTransmit)).toNat :: s1.sleeps = _
      rw [if_pos (by omega)]
      congr 1
      omega
  · have h : afterChunk D s1 = .goOn
        { clock := s1.clock,
          calls := s1.calls, written := s1.written, chunks := s1.chunks + 1,
          startTransmit := s1.endTransmit, endTransmit := s1.clock,
          remains := (50 - ((s1.clock : Int) - s1.endTransmit)) :: s1.remains,
          sleeps := s1.sleeps } := by
      simp only [afterChunk, hD, if_false, TRANSMIT_INTERVAL_MILLISECONDS,
        Nat.cast_ofNat, hr, hpos]
    refine ⟨_, h, rfl, rfl, ?_, rfl, rfl, rfl, rfl, ?_⟩
    · show s1.clock = _
      omega
    · show s1.sleeps = _
      rw [if_neg (by omega)]

/-- What `afterChunk` computes when the chunk ends the run. -/
theorem afterChunk_stop (D : Int) (s1 : Emitter) (hD : (s1.clock : Int) ≥ D) :
    afterChunk D s1 = .stop
      { clock := s1.clock, calls := s1.calls, written := s1.written, chunks := s1.chunks + 1,
        startTransmit := s1.endTransmit, endTransmit := s1.clock,
        remains := s1.remains, sleeps := s1.sleeps } := by
  simp only [afterChunk, hD, if_true]

/-- One pass of the outer loop on `timedNet cost`. -/
theorem mainLoop_timed_succ (cost : Nat → Nat) (bpi : Nat) (D : Int) (fuel : Nat) (s : Emitter) :
    mainLoop (timedNet cost) bpi D (fuel + 1) s =
      match afterChunk D (timedChunk cost bpi s) with
      | .stop s2 => some (.finished s2)
      | .goOn s3 => mainLoop (timedNet cost) bpi D fuel s3 := by
  rw [mainLoop, sendLoop_timed]
  by_cases hb : bpi = 0
  · subst hb; simp [timedChunk]
  · simp [timedChunk, hb]

theorem intersperse_fifty (n : Nat) :
    List.intersperse (0 : Int) (List.replicate (n + 1) 50) ++ [0, 50] =
      List.intersperse (0 : Int) (List.replicate (n + 2) 50) := by
  induction n with
  | zero => rfl
  | succ n ih =>
    have h : ∀ m, List.intersperse (0 : Int) (List.replicate (m + 2) 50) =
        50 :: 0 :: List.intersperse (0 : Int) (List.replicate (m + 1) 50) := fun m => rfl
    rw [h n, h (n + 1), List.cons_append, List.cons_append, ih]

/-- On the ideal network the loop sends two chunks per 50 ms window: started at the top of
a window (`clock = endTransmit = 50 * j < D`) with `n` windows to go, it finishes after
`2 * n` more chunks, at time `50 * (j + n)`; the values of `remain` computed on the way are
50, 0, 50, 0, ..., 50 and each window has one sleep of 50 ms. -/
theorem mainLoop_ideal_windows (bpi : Nat) (D : Int) (n : Nat) :
    ∀ (j fuel : Nat) (s : Emitter), s.clock = 50 * j → s.endTransmit = 50 * j →
      (50 * j : Int) < D → D ≤ 50 * (j + n) → (50 * (j + n) : Int) < D + 50 → 2 * n ≤ fuel →
      ∃ s1, mainLoop idealNet bpi D fuel s = some (.finished s1) ∧
        s1.written = s.written + 2 * n * bpi ∧ s1.chunks = s.chunks + 2 * n ∧
        s1.clock = 50 * (j + n) ∧ s1.endTransmit = 50 * (j + n) ∧
        s1.remains = List.intersperse 0 (List.replicate n 50) ++ s.remains ∧
        s1.sleeps = List.replicate n 50 ++ s.sleeps := by
  induction n with
  | zero => intro j fuel s _ _ h1 h2 _ _; simp at h2; omega
  | succ n ih =>
    intro j fuel s hc he h1 h2 h3 hf
    obtain ⟨f, rfl⟩ : ∃ f, fuel = f + 2 := ⟨fuel - 2, by omega⟩
    rw [idealNet_eq, mainLoop_timed_succ]
    have hc1 : (timedChunk (fun _ => 0) bpi s).clock = 50 * j := by
      simp only [timedChunk, hc]; split <;> rfl
    have he1 : (timedChunk (fun _ => 0) bpi s).endTransmit = 50 * j := by
      simp only [timedChunk, he]
    obtain ⟨s3, h3eq, -, h3e, h3c, -, h3w, h3k, h3r, h3s⟩ :=
      afterChunk_goOn D (timedChunk (fun _ => 0) bpi s)
        (by rw [hc1]; push_cast; omega) (by rw [hc1, he1]) (by rw [hc1, he1]; simp)
    rw [h3eq]
    simp only []
    rw [mainLoop_timed_succ]
    rw [hc1, he1] at h3c h3r h3s
    rw [hc1] at h3e
    have hc2 : (timedChunk (fun _ => 0) bpi s3).clock = 50 * j + 50 := by
      simp only [timedChunk, h3c]; split <;> simp
    have he2 : (timedChunk (fun _ => 0) bpi s3).endTransmit = 50 * j := by
      simp only [timedChunk, h3e]
    have hw2 : (timedChunk (fun _ => 0) bpi s3).written = s.written + 2 * bpi := by
      simp only [timedChunk, h3w]; ring
    have hk2 : (timedChunk (fun _ => 0) bpi s3).chunks = s.chunks + 1 := by
      simp only [timedChunk, h3k]
    have hr2 : (timedChunk (fun _ => 0) bpi s3).remains = 50 :: s.remains := by
      simp only [timedChunk, h3r]; simp [timedChunk]
    have hs2 : (timedChunk (fun _ => 0) bpi s3).sleeps = 50 :: s.sleeps := by
      simp only [timedChunk, h3s]; simp [timedChunk]
    by_cases hfin : ((timedChunk (fun _ => 0) bpi s3).clock : Int) ≥ D
    · have hn : n = 0 := by rw [hc2] at hfin; push_cast at hfin h3; omega
      subst hn
      rw [afterChunk_stop D _ hfin]
      refine ⟨_, rfl, ?_, ?_, ?_, ?_, ?_, ?_⟩
      · simp only [hw2]
      · simp only [hk2]
      · simp only [hc2]; ring
      · simp only [hc2]; ring
      · simp only [hr2]; rfl
      · simp only [hs2]; rfl
    · obtain ⟨s4, h4eq, -, h4e, h4c, -, h4w, h4k, h4r, h4s⟩ :=
        afterChunk_goOn D (timedChunk (fun _ => 0) bpi s3) hfin
          (by rw [hc2, he2]; omega) (by rw [hc2, he2]; push_cast; norm_num)
      rw [h4eq]
      simp only []
      rw [hc2, he2] at h4c h4r h4s
      rw [hc2] at h4e
      rw [hc2] at hfin
      push_cast at hfin h2 h3
      have hn : 1 ≤ n := by omega
      obtain ⟨s5, h5eq, h5w, h5k, h5c, h5e, h5r, h5s⟩ := ih (j + 1) f s4
        (by rw [h4c]; simp; ring) (by rw [h4e]; ring)
        (by push_cast; omega) (by push_cast; omega) (by push_cast; omega) (by omega)
      rw [← idealNet_eq]
      refine ⟨s5, h5eq, ?_, ?_, ?_, ?_, ?_, ?_⟩
      · rw [h5w, h4w, hw2]; ring
      · rw [h5k, h4k, hk2]; ring
      · rw [h5c]; ring
      · rw [h5e]; ring
      · rw [h5r, h4r, hr2]
        obtain ⟨m, rfl⟩ : ∃ m, n = m + 1 := ⟨n - 1, by omega⟩
        rw [← intersperse_fifty m]
        simp
      · rw [h5s, h4s, hs2, if_neg (by omega)]
        simp [List.replicate_succ']

/-- Without wrap-around in `byterate * 50` the chunk is a fortieth of the byte rate. -/
theorem bytesPerInterval_eq (R : Nat) (h : R * 50 < 2 ^ 64) : bytesPerInterval R = R / 40 := by
  unfold bytesPerInterval TRANSMIT_INTERVAL_MILLISECONDS MILLISECONDS_PER_SECOND
  rw [Nat.mod_eq_of_lt h]
  omega

/-- On the ideal network a run of duration `D = 50 * k > 0` finishes after `2 * k` chunks. -/
theorem pacedRun_ideal (R k fuel : Nat) (hk : 0 < k) (hf : 2 * k ≤ fuel) :
    ∃ s, pacedRun idealNet R ((50 * k : Nat) : Int) fuel = some (.finished s) ∧
      s.written = 2 * k * bytesPerInterval R ∧ s.chunks = 2 * k ∧ s.endTransmit = 50 * k ∧
      s.remains = List.intersperse 0 (List.replicate k 50) ∧
      s.sleeps = List.replicate k 50 := by
  obtain ⟨s, hs, hw, hc, -, hcl, hr, hsl⟩ := mainLoop_ideal_windows (bytesPerInterval R)
    ((50 * k : Nat) : Int) k 0 fuel Emitter.init rfl rfl (by push_cast; omega)
    (by push_cast; omega) (by push_cast; omega) hf
  refine ⟨s, hs, ?_, ?_, ?_, ?_, ?_⟩
  · rw [hw]; simp [Emitter.init]
  · rw [hc]; simp [Emitter.init]
  · rw [hcl]; simp
  · rw [hr]; simp [Emitter.init]
  · rw [hsl]; simp [Emitter.init]

/-- C1 (as amended): on the ideal network, for every byte rate `R` whose product with 50
fits `size_t` and every duration `D > 0` that is a multiple of 1000 ms, the run finishes (with
any fuel of at least `D / 25` passes) having sent exactly `D / 25` chunks of `R / 40` bytes;
the total is short of `R * D / 1000` by exactly `(D / 1000) * (R % 40)` bytes, so it is within
one chunk of `R * D / 1000` exactly when `(D / 1000) * (R % 40) ≤ R / 40`, and it equals
`R * D / 1000` when `R` is a multiple of 40. -/
theorem emitter_total_bytes_ideal (R D fuel : Nat) (hR64 : R * 50 < 2 ^ 64)
    (hD : 0 < D) (hDk : 1000 ∣ D) (hf : D / 25 ≤ fuel) :
    ∃ s, pacedRun idealNet R (D : Int) fuel = some (.finished s) ∧
      bytesPerInterval R = R / 40 ∧
      s.written = D / 25 * (R / 40) ∧
      s.written + D / 1000 * (R % 40) = R * D / 1000 ∧
      (R * D / 1000 - s.written ≤ bytesPerInterval R ↔ D / 1000 * (R % 40) ≤ R / 40) ∧
      (40 ∣ R → s.written = R * D / 1000) := by
  obtain ⟨m, rfl⟩ := hDk
  have hm : 0 < m := by omega
  have hD50 : 1000 * m = 50 * (20 * m) := by ring
  have hb := bytesPerInterval_eq R hR64
  obtain ⟨s, hs, hw, -, -, -, -⟩ := pacedRun_ideal R (20 * m) fuel (by omega) (by omega)
  rw [← hD50] at hs
  have h25 : 1000 * m / 25 = 40 * m := by omega
  have h1000 : 1000 * m / 1000 = m := by omega
  have hRD : R * (1000 * m) / 1000 = R * m := by
    rw [show R * (1000 * m) = 1000 * (R * m) by ring]; omega
  have hw2 : s.written = 40 * m * (R / 40) := by rw [hw, hb]; ring
  have hsplit : 40 * m * (R / 40) + m * (R % 40) = R * m := by
    have := Nat.div_add_mod R 40
    calc 40 * m * (R / 40) + m * (R % 40) = m * (40 * (R / 40) + R % 40) := by ring
      _ = R * m := by rw [this]; ring
  refine ⟨s, hs, hb, ?_, ?_, ?_, ?_⟩
  · rw [h25, hw2]
  · rw [h1000, hRD, hw2, hsplit]
  · rw [h1000, hRD, hb, hw2]; omega
  · intro h40
    have : R % 40 = 0 := Nat.mod_eq_zero_of_dvd h40
    rw [hRD, hw2, ← hsplit, this]; simp

/-- Witness for C1: 1 Mbit/s (125000 bytes/s) for one second. -/
theorem emitter_total_bytes_ideal_witness :
    ∃ s, pacedRun idealNet 125000 ((1000 : Nat) : Int) 40 = some (.finished s) ∧
      bytesPerInterval 125000 = 125000 / 40 ∧
      s.written = 1000 / 25 * (125000 / 40) ∧
      s.written + 1000 / 1000 * (125000 % 40) = 125000 * 1000 / 1000 ∧
      (125000 * 1000 / 1000 - s.written ≤ bytesPerInterval 125000 ↔
        1000 / 1000 * (125000 % 40) ≤ 125000 / 40) ∧
      (40 ∣ 125000 → s.written = 125000 * 1000 / 1000) :=
  emitter_total_bytes_ideal 125000 1000 40 (by decide) (by decide) (by decide) (by decide)

/-- C1 as stated fails: at 79 bytes/s for 1000 ms the ideal run sends 40 chunks of 1 byte,
40 bytes in all, while `R * D / 1000 = 79`; the difference 39 exceeds the chunk size 1. -/
theorem emitter_total_bytes_counterexample :
    pacedRun idealNet 79 1000 40 = some (.finished
      { clock := 1000, calls := 40, written := 40, chunks := 40, startTransmit := 950,
        endTransmit := 1000, remains := List.intersperse 0 (List.replicate 20 50),
        sleeps := List.replicate 20 50 }) ∧
    bytesPerInterval 79 = 1 ∧
    ¬ ((79 * 1000 / 1000 : Int) - 40 ≤ bytesPerInterval 79 ∧
       (40 : Int) - 79 * 1000 / 1000 ≤ bytesPerInterval 79) := by
  refine ⟨by decide, by decide, by decide⟩

/-- C17 (as amended): on the ideal network the computed `remain` alternates 50, 0, 50, ...
(one sleep of 50 ms per window), and for every byte rate `R` with `R * 50 < 2 ^ 64` and
every duration `D > 0` that is a multiple of 50 the run finishes having sent exactly `D / 25`
chunks and exactly `(D / 25) * (R / 40)` bytes. -/
theorem emitter_two_chunks_per_window (R D fuel : Nat) (hR64 : R * 50 < 2 ^ 64) (hD : 0 < D)
    (hD50 : 50 ∣ D) (hf : D / 25 ≤ fuel) :
    ∃ s, pacedRun idealNet R (D : Int) fuel = some (.finished s) ∧
      s.chunks = D / 25 ∧ s.written = D / 25 * (R / 40) ∧
      s.remains = List.intersperse 0 (List.replicate (D / 50) 50) ∧
      s.sleeps = List.replicate (D / 50) 50 := by
  obtain ⟨k, rfl⟩ := hD50
  have h25 : 50 * k / 25 = 2 * k := by omega
  have h50 : 50 * k / 50 = k := by omega
  obtain ⟨s, hs, hw, hc, -, hr, hsl⟩ := pacedRun_ideal R k fuel (by omega) (by omega)
  refine ⟨s, hs, ?_, ?_, ?_, ?_⟩
  · rw [hc, h25]
  · rw [hw, h25, bytesPerInterval_eq R hR64]
  · rw [hr, h50]
  · rw [hsl, h50]

/-- Witness for C17: 80 bytes/s for 150 ms. -/
theorem emitter_two_chunks_per_window_witness :
    ∃ s, pacedRun idealNet 80 ((150 : Nat) : Int) 6 = some (.finished s) ∧
      s.chunks = 150 / 25 ∧ s.written = 150 / 25 * (80 / 40) ∧
      s.remains = List.intersperse 0 (List.replicate (150 / 50) 50) ∧
      s.sleeps = List.replicate (150 / 50) 50 :=
  emitter_two_chunks_per_window 80 150 6 (by decide) (by decide) (by decide) (by decide)

/-- C17 as stated fails for a byte rate whose product with 50 wraps in `size_t`: at
`R = 2 ^ 63` the chunk is 0 bytes, so the run of 50 ms sends its two chunks but no byte,
while `(D / 25) * (R / 40)` is not 0. -/
theorem emitter_two_chunks_counterexample :
    pacedRun idealNet (2 ^ 63) 50 2 = some (.finished
      { clock := 50, calls := 0, written := 0, chunks := 2, startTransmit := 0,
        endTransmit := 50, remains := [50], sleeps := [50] }) ∧
    50 / 25 * (2 ^ 63 / 40) ≠ 0 := by
  refine ⟨by decide, by decide⟩

/-- C14 (as amended): when `R * 50` does not wrap, the chunk is half of `R * 50 / 1000`,
rounded down: `R * 50 / 1000 / 2 = R / 40`. -/
theorem chunk_size_halved (R : Nat) (h : R * 50 < 2 ^ 64) :
    bytesPerInterval R = R * 50 / 1000 / 2 ∧ bytesPerInterval R = R / 40 ∧
    2 * bytesPerInterval R ≤ R * 50 / 1000 ∧ R * 50 / 1000 ≤ 2 * bytesPerInterval R + 1 := by
  unfold bytesPerInterval TRANSMIT_INTERVAL_MILLISECONDS MILLISECONDS_PER_SECOND
  rw [Nat.mod_eq_of_lt h]
  omega

/-- Witness for C14: 1 Mbit/s. -/
theorem chunk_size_halved_witness :
    bytesPerInterval 125000 = 125000 * 50 / 1000 / 2 ∧ bytesPerInterval 125000 = 125000 / 40 ∧
    2 * bytesPerInterval 125000 ≤ 125000 * 50 / 1000 ∧
    125000 * 50 / 1000 ≤ 2 * bytesPerInterval 125000 + 1 :=
  chunk_size_halved 125000 (by decide)

/-- C14 as stated fails: at 125000 bytes/s the chunk is 3125 bytes, not
`125000 * 50 / 1000 = 6250`. -/
theorem chunk_size_counterexample :
    bytesPerInterval 125000 = 3125 ∧ 125000 * 50 / 1000 = 6250 ∧
    bytesPerInterval 125000 ≠ 125000 * 50 / 1000 := by
  decide

theorem timedChunk_clock (cost : Nat → Nat) (hcost : ∀ k, cost k ≤ 50) (bpi : Nat) (s : Emitter) :
    s.clock ≤ (timedChunk cost bpi s).clock ∧ (timedChunk cost bpi s).clock ≤ s.clock + 50 := by
  simp only [timedChunk]
  split
  · omega
  · have := hcost s.calls; omega

/-- When every chunk takes at most 50 ms the clock gains at least 50 ms every two chunks, so
the loop finishes, and it does so less than 100 ms after the duration has passed. -/
theorem mainLoop_timed_bound (cost : Nat → Nat) (hcost : ∀ k, cost k ≤ 50) (bpi D : Nat) :
    ∀ (fuel : Nat) (s : Emitter), s.endTransmit ≤ s.clock → s.clock ≤ s.endTransmit + 50 →
      s.startTransmit + 50 ≤ s.clock → s.startTransmit ≤ s.endTransmit → s.endTransmit < D →
      (D - 1 - s.startTransmit) / 50 + (D - 1 - s.endTransmit) / 50 + 2 ≤ fuel →
      ∃ s1, mainLoop (timedNet cost) bpi (D : Int) fuel s = some (.finished s1) ∧
        D ≤ s1.endTransmit ∧ s1.endTransmit < D + 100 := by
  intro fuel
  induction fuel with
  | zero => intro s _ _ _ _ _ hf; omega
  | succ fuel ih =>
    intro s h1 h2 h3 h4 h5 hf
    rw [mainLoop_timed_succ]
    obtain ⟨c1, c2⟩ := timedChunk_clock cost hcost bpi s
    have he : (timedChunk cost bpi s).endTransmit = s.endTransmit := rfl
    by_cases hfin : ((timedChunk cost bpi s).clock : Int) ≥ D
    · rw [afterChunk_stop _ _ hfin]
      refine ⟨_, rfl, ?_, ?_⟩
      · show D ≤ (timedChunk cost bpi s).clock
        omega
      · show (timedChunk cost bpi s).clock < D + 100
        omega
    · obtain ⟨s3, h3eq, h3a, h3e, h3c, -, -, -, -, -⟩ :=
        afterChunk_goOn (D : Int) (timedChunk cost bpi s) hfin (by rw [he]; omega)
          (by rw [he]; omega)
      rw [h3eq]
      simp only []
      rw [he] at h3a h3c
      exact ih s3 (by rw [h3e, h3c]; omega) (by rw [h3e, h3c]; omega)
        (by rw [h3a, h3c]; omega) (by rw [h3a, h3e]; omega) (by rw [h3e]; omega)
        (by rw [h3a, h3e]; omega)

/-- C12 (as amended): on a network where every chunk takes between 0 and 50 ms to transmit
and every sleep is exact, for every duration `D > 0` the loop terminates (any fuel of at
least `2 * ((D - 1) / 50) + 3` passes is enough), and the elapsed time at which it terminates
is `≥ D` and `< D + 100` ms. -/
theorem emitter_run_time (cost : Nat → Nat) (hcost : ∀ k, cost k ≤ 50) (R D fuel : Nat)
    (hD : 0 < D) (hf : 2 * ((D - 1) / 50) + 3 ≤ fuel) :
    ∃ s, pacedRun (timedNet cost) R (D : Int) fuel = some (.finished s) ∧
      D ≤ s.endTransmit ∧ s.endTransmit < D + 100 := by
  obtain ⟨f, rfl⟩ : ∃ f, fuel = f + 1 := ⟨fuel - 1, by omega⟩
  unfold pacedRun
  rw [mainLoop_timed_succ]
  obtain ⟨c1, c2⟩ := timedChunk_clock cost hcost (bytesPerInterval R) Emitter.init
  have he : (timedChunk cost (bytesPerInterval R) Emitter.init).endTransmit = 0 := rfl
  have hc0 : Emitter.init.clock = 0 := rfl
  rw [hc0] at c1 c2
  by_cases hfin : ((timedChunk cost (bytesPerInterval R) Emitter.init).clock : Int) ≥ D
  · rw [afterChunk_stop _ _ hfin]
    refine ⟨_, rfl, ?_, ?_⟩
    · show D ≤ (timedChunk cost (bytesPerInterval R) Emitter.init).clock
      omega
    · show (timedChunk cost (bytesPerInterval R) Emitter.init).clock < D + 100
      omega
  · obtain ⟨s3, h3eq, h3a, h3e, h3c, -, -, -, -, -⟩ :=
      afterChunk_goOn (D : Int) (timedChunk cost (bytesPerInterval R) Emitter.init) hfin
        (by rw [he]; omega) (by rw [he]; omega)
    rw [h3eq]
    simp only []
    rw [he] at h3a h3c
    exact mainLoop_timed_bound cost hcost (bytesPerInterval R) D f s3
      (by rw [h3e, h3c]; omega) (by rw [h3e, h3c]; omega)
      (by rw [h3a, h3c]; omega) (by rw [h3a, h3e]; omega) (by rw [h3e]; omega)
      (by rw [h3a, h3e]; omega)

/-- Witness for C12: every send takes 30 ms, 40 bytes/s for 100 ms. -/
theorem emitter_run_time_witness :
    ∃ s, pacedRun (timedNet (fun _ => 30)) 40 ((100 : Nat) : Int) 5 = some (.finished s) ∧
      100 ≤ s.endTransmit ∧ s.endTransmit < 100 + 100 :=
  emitter_run_time (fun _ => 30) (fun _ => Nat.le_of_ble_eq_true rfl) 40 100 5 (by decide)
    (by decide)

/-- C12 as stated fails: with chunk times of 49, 49, 50 (18 times), 0 and 50 ms (all within
0..50 ms) a run of 1000 ms at 40 bytes/s leaves the loop at 1099 ms, which is not below
`D + 50 = 1050`. -/
theorem emitter_run_time_counterexample :
    (∀ k, (fun k => if k < 2 then 49 else if k = 20 then 0 else 50 : Nat → Nat) k ≤ 50) ∧
    ∃ s, pacedRun (timedNet (fun k => if k < 2 then 49 else if k = 20 then 0 else 50)) 40 1000 22
        = some (.finished s) ∧ s.endTransmit = 1099 ∧ s.chunks = 22 ∧
      ¬ (s.endTransmit < 1000 + 50) := by
  refine ⟨fun k => ?_, ?_⟩
  · simp only; split
    · decide
    · split <;> decide
  · exact ⟨_, rfl, by decide, by decide, by decide⟩

/-- The inner loop only moves the clock forward and counts sends and bytes; it leaves the
bookkeeping of the outer loop alone, whether it ends well or with a failed send. -/
theorem sendLoop_frame (net : Net) : ∀ (fuel : Nat) (s : Emitter) (b : Nat) (r : Except Emitter Emitter),
    sendLoop net fuel s b = some r →
    ∀ s1, (r = .ok s1 ∨ r = .error s1) →
      s.clock ≤ s1.clock ∧ s.calls ≤ s1.calls ∧ s1.chunks = s.chunks ∧
      s1.startTransmit = s.startTransmit ∧ s1.endTransmit = s.endTransmit ∧
      s1.remains = s.remains ∧ s1.sleeps = s.sleeps := by
  intro fuel
  induction fuel with
  | zero =>
    intro s b r h s1 hr
    cases b with
    | zero =>
      simp only [sendLoop, Option.some.injEq] at h
      subst h
      rcases hr with hr | hr
      · cases hr; exact ⟨le_rfl, le_rfl, rfl, rfl, rfl, rfl, rfl⟩
      · cases hr
    | succ n => simp [sendLoop] at h
  | succ fuel ih =>
    intro s b r h s1 hr
    cases b with
    | zero =>
      simp only [sendLoop, Option.some.injEq] at h
      subst h
      rcases hr with hr | hr
      · cases hr; exact ⟨le_rfl, le_rfl, rfl, rfl, rfl, rfl, rfl⟩
      · cases hr
    | succ n =>
      simp only [sendLoop] at h
      split at h
      · simp only [Option.some.injEq] at h
        subst h
        rcases hr with hr | hr
        · cases hr
        · cases hr
          exact ⟨Nat.le_add_right _ _, Nat.le_add_right _ _, rfl, rfl, rfl, rfl, rfl⟩
      · obtain ⟨h1, h2, h3, h4, h5, h6, h7⟩ := ih _ _ r h s1 hr
        exact ⟨le_trans (Nat.le_add_right _ _) h1, le_trans (Nat.le_add_right _ _) h2,
          h3, h4, h5, h6, h7⟩

theorem resultsNet_at (pre rest : List Int) (r : Int) (req : Nat) :
    (resultsNet (pre ++ r :: rest) pre.length req).sent = r := by
  simp only [resultsNet]
  rw [List.getD_eq_getElem?_getD, List.getElem?_append_right (le_refl _)]
  simp

/-- A filling sequence of results sums to the chunk size, and no proper prefix does. -/
theorem fillsChunk_sum (rs : List Int) : ∀ n : Nat, fillsChunk rs n = true →
    rs.sum = n ∧ ∀ k, k < rs.length → (rs.take k).sum < n := by
  induction rs with
  | nil => intro n h; simp [fillsChunk] at h; subst h; simp
  | cons r rs ih =>
    intro n h
    simp only [fillsChunk, Bool.and_eq_true, decide_eq_true_eq] at h
    obtain ⟨⟨h1, h2⟩, h3⟩ := h
    obtain ⟨i1, i2⟩ := ih _ h3
    have hn : ((n - r.toNat : Nat) : Int) = n - r := by omega
    refine ⟨by rw [List.sum_cons, i1, hn]; ring, fun k hk => ?_⟩
    cases k with
    | zero => simp; omega
    | succ k =>
      have := i2 k (by simpa using hk)
      rw [List.take_succ_cons, List.sum_cons]
      omega

/-- The inner loop over a filling sequence of results: it ends well after exactly these
sends. -/
theorem sendLoop_fills (rs : List Int) : ∀ (pre extra : List Int) (fuel : Nat) (s : Emitter)
    (n : Nat), n < 2 ^ 64 → s.calls = pre.length → fillsChunk rs n = true → rs.length ≤ fuel →
    sendLoop (resultsNet (pre ++ rs ++ extra)) fuel s n = some (.ok
      { clock := s.clock, calls := s.calls + rs.length, written := s.written + n,
        chunks := s.chunks, startTransmit := s.startTransmit, endTransmit := s.endTransmit,
        remains := s.remains, sleeps := s.sleeps }) := by
  induction rs with
  | nil =>
    intro pre extra fuel s n _ _ h _
    simp [fillsChunk] at h
    subst h
    cases fuel <;> simp [sendLoop]
  | cons r rs ih =>
    intro pre extra fuel s n hn hc h hf
    simp only [fillsChunk, Bool.and_eq_true, decide_eq_true_eq] at h
    obtain ⟨⟨h1, h2⟩, h3⟩ := h
    obtain ⟨b, rfl⟩ : ∃ b, n = b + 1 := ⟨n - 1, by omega⟩
    obtain ⟨f, rfl⟩ : ∃ f, fuel = f + 1 := ⟨fuel - 1, by simp at hf; omega⟩
    have hsent : ∀ req, (resultsNet (pre ++ r :: rs ++ extra) s.calls req).sent = r := by
      intro req
      rw [hc, List.append_assoc, List.cons_append]
      exact resultsNet_at pre (rs ++ extra) r req
    have hms : ∀ req, (resultsNet (pre ++ r :: rs ++ extra) s.calls req).msecs = 0 := fun _ => rfl
    have hres : toSizeT (((b + 1 : Nat) : Int) - r) = b + 1 - r.toNat := by
      unfold toSizeT; omega
    have hnn : ¬ r < 0 := by omega
    simp only [List.length_cons] at hf
    rw [sendLoop]
    simp only [hsent, hms, if_neg hnn, hres]
    have hpre : pre ++ r :: rs ++ extra = (pre ++ [r]) ++ rs ++ extra := by simp
    rw [hpre, ih (pre ++ [r]) extra f _ (b + 1 - r.toNat) (by omega) (by simp [hc]) h3
      (by omega)]
    simp only [Option.some.injEq, Except.ok.injEq, Emitter.mk.injEq, List.length_cons, and_true,
      true_and]
    omega

/-- The inner loop over results that leave part of the chunk unwritten and are followed by a
negative result: it ends at that result with a failure. -/
theorem sendLoop_fails (ps : List Int) : ∀ (pre extra : List Int) (neg : Int) (fuel : Nat)
    (s : Emitter) (n : Nat), n < 2 ^ 64 → s.calls = pre.length → partChunk ps n = true →
    neg < 0 → ps.length + 1 ≤ fuel →
    ∃ s1, sendLoop (resultsNet (pre ++ ps ++ neg :: extra)) fuel s n = some (.error s1) ∧
      s1.calls = s.calls + ps.length + 1 ∧ (s1.written : Int) = s.written + ps.sum := by
  induction ps with
  | nil =>
    intro pre extra neg fuel s n hn hc h hneg hf
    simp only [partChunk, decide_eq_true_eq] at h
    obtain ⟨b, rfl⟩ : ∃ b, n = b + 1 := ⟨n - 1, by omega⟩
    obtain ⟨f, rfl⟩ : ∃ f, fuel = f + 1 := ⟨fuel - 1, by simp at hf; omega⟩
    have hsent : ∀ req, (resultsNet (pre ++ [] ++ neg :: extra) s.calls req).sent = neg := by
      intro req
      rw [hc, List.append_nil]
      exact resultsNet_at pre extra neg req
    rw [sendLoop]
    simp only [hsent, if_pos hneg]
    exact ⟨_, rfl, by simp, by simp⟩
  | cons r ps ih =>
    intro pre extra neg fuel s n hn hc h hneg hf
    simp only [partChunk, Bool.and_eq_true, decide_eq_true_eq] at h
    obtain ⟨⟨h1, h2⟩, h3⟩ := h
    obtain ⟨b, rfl⟩ : ∃ b, n = b + 1 := ⟨n - 1, by omega⟩
    obtain ⟨f, rfl⟩ : ∃ f, fuel = f + 1 := ⟨fuel - 1, by simp at hf; omega⟩
    have hsent : ∀ req, (resultsNet (pre ++ r :: ps ++ neg :: extra) s.calls req).sent = r := by
      intro req
      rw [hc, List.append_assoc, List.cons_append]
      exact resultsNet_at pre (ps ++ neg :: extra) r req
    have hms : ∀ req, (resultsNet (pre ++ r :: ps ++ neg :: extra) s.calls req).msecs = 0 :=
      fun _ => rfl
    have hres : toSizeT (((b + 1 : Nat) : Int) - r) = b + 1 - r.toNat := by
      unfold toSizeT; omega
    have hnn : ¬ r < 0 := by omega
    simp only [List.length_cons] at hf
    rw [sendLoop]
    simp only [hsent, hms, if_neg hnn, hres]
    have hpre : pre ++ r :: ps ++ neg :: extra = (pre ++ [r]) ++ ps ++ neg :: extra := by simp
    rw [hpre]
    obtain ⟨s1, e1, e2, e3⟩ := ih (pre ++ [r]) extra neg f
      { clock := s.clock + 0, calls := s.calls + 1, written := s.written + r.toNat,
        chunks := s.chunks, startTransmit := s.startTransmit, endTransmit := s.endTransmit,
        remains := s.remains, sleeps := s.sleeps }
      (b + 1 - r.toNat) (by omega) (by simp [hc]) h3 hneg (by omega)
    refine ⟨s1, e1, ?_, ?_⟩
    · rw [e2]; simp only [List.length_cons]; omega
    · rw [e3, List.sum_cons]; push_cast; omega

/-- C15: for every chunk size `n` (a `size_t`), over a sequence of send results `rs` in which
each result is at least 1 and at most the bytes still to write and which ends when nothing is
left, the inner loop terminates after exactly these sends, having sent exactly `n` bytes (the
results sum to `n` and no proper prefix of them does); and when such results `ps` leave
part of the chunk unwritten and a negative result follows, the run aborts at that result:
`main` returns without another send, clock reading or sleep.  (`pre`: the results of the
sends made before this chunk; `extra`: results that are never asked for.) -/
theorem full_chunk_transmission (n : Nat) (rs ps pre extra : List Int) (neg D : Int)
    (fuel : Nat) (s : Emitter) (hn : n < 2 ^ 64) (hc : s.calls = pre.length)
    (hfill : fillsChunk rs n = true) (hpart : partChunk ps n = true) (hneg : neg < 0)
    (hf : rs.length + ps.length + 1 ≤ fuel) :
    (sendLoop (resultsNet (pre ++ rs ++ extra)) fuel s n = some (.ok
        { clock := s.clock, calls := s.calls + rs.length, written := s.written + n,
          chunks := s.chunks, startTransmit := s.startTransmit, endTransmit := s.endTransmit,
          remains := s.remains, sleeps := s.sleeps }) ∧
      rs.sum = n ∧ ∀ k, k < rs.length → (rs.take k).sum < n) ∧
    ∃ s1, sendLoop (resultsNet (pre ++ ps ++ neg :: extra)) fuel s n = some (.error s1) ∧
      mainLoop (resultsNet (pre ++ ps ++ neg :: extra)) n D fuel s = some (.transmitFailed s1) ∧
      s1.calls = s.calls + ps.length + 1 ∧ (s1.written : Int) = s.written + ps.sum ∧
      s1.chunks = s.chunks ∧ s1.startTransmit = s.startTransmit ∧
      s1.endTransmit = s.endTransmit ∧ s1.remains = s.remains ∧ s1.sleeps = s.sleeps := by
  obtain ⟨f, rfl⟩ : ∃ f, fuel = f + 1 := ⟨fuel - 1, by omega⟩
  obtain ⟨h1, h2⟩ := fillsChunk_sum rs n hfill
  obtain ⟨s1, e1, e2, e3⟩ := sendLoop_fails ps pre extra neg (f + 1) s n hn hc hpart hneg
    (by omega)
  obtain ⟨-, -, g3, g4, g5, g6, g7⟩ := sendLoop_frame _ _ s n _ e1 s1 (Or.inr rfl)
  refine ⟨⟨sendLoop_fills rs pre extra (f + 1) s n hn hc hfill (by omega), h1, h2⟩,
    s1, e1, ?_, e2, e3, g3, g4, g5, g6, g7⟩
  rw [mainLoop, e1]

/-- Witness for C15: a chunk of 10 bytes written as 4 + 6, and one cut short by an error
after 4 bytes. -/
theorem full_chunk_transmission_witness :
    (sendLoop (resultsNet ([] ++ [4, 6] ++ [3])) 4 Emitter.init 10 = some (.ok
        { clock := Emitter.init.clock, calls := Emitter.init.calls + [(4 : Int), 6].length,
          written := Emitter.init.written + 10,
          chunks := Emitter.init.chunks, startTransmit := Emitter.init.startTransmit,
          endTransmit := Emitter.init.endTransmit,
          remains := Emitter.init.remains, sleeps := Emitter.init.sleeps }) ∧
      ([4, 6] : List Int).sum = (10 : Nat) ∧
      ∀ k, k < [(4 : Int), 6].length → (([4, 6] : List Int).take k).sum < (10 : Nat)) ∧
    ∃ s1, sendLoop (resultsNet ([] ++ [4] ++ (-1) :: [3])) 4 Emitter.init 10 = some (.error s1) ∧
      mainLoop (resultsNet ([] ++ [4] ++ (-1) :: [3])) 10 1000 4 Emitter.init
        = some (.transmitFailed s1) ∧
      s1.calls = Emitter.init.calls + [(4 : Int)].length + 1 ∧
      (s1.written : Int) = Emitter.init.written + ([4] : List Int).sum ∧
      s1.chunks = Emitter.init.chunks ∧ s1.startTransmit = Emitter.init.startTransmit ∧
      s1.endTransmit = Emitter.init.endTransmit ∧ s1.remains = Emitter.init.remains ∧
      s1.sleeps = Emitter.init.sleeps :=
  full_chunk_transmission 10 [4, 6] [4] [] [3] (-1) 1000 4 Emitter.init (by decide) rfl rfl rfl
    (by decide) (by decide)

/-- C16 (as amended): after every chunk that does not end the run (`D` an `int`), the emitter
computes `remain = 50 - t`, where `t` runs from the clock reading after the previous chunk
(`s.endTransmit`; `begin` for the first chunk) to the clock reading after this chunk
(`s1.clock`): it is the preceding sleep `s.clock - s.endTransmit` plus the transmission time
`s1.clock - s.clock` of this chunk.  It sleeps for `remain` ms exactly when `remain > 0`. -/
theorem pacing_sleep_interval (net : Net) (bpi : Nat) (D : Int) (fuel : Nat) (s s1 : Emitter)
    (hD : D < 2 ^ 31) (hle : s.endTransmit ≤ s.clock)
    (hsend : sendLoop net (fuel + 1) s bpi = some (.ok s1)) (hgo : (s1.clock : Int) < D) :
    ∃ s3, mainLoop net bpi D (fuel + 1) s = mainLoop net bpi D fuel s3 ∧
      s.clock ≤ s1.clock ∧
      s3.remains =
        (50 - (((s.clock : Int) - s.endTransmit) + ((s1.clock : Int) - s.clock))) :: s.remains ∧
      s3.sleeps =
        (if 0 < 50 - (((s.clock : Int) - s.endTransmit) + ((s1.clock : Int) - s.clock))
         then (50 - (((s.clock : Int) - s.endTransmit) + ((s1.clock : Int) - s.clock))).toNat
           :: s.sleeps
         else s.sleeps) ∧
      s3.clock = s1.clock +
        (50 - (((s.clock : Int) - s.endTransmit) + ((s1.clock : Int) - s.clock))).toNat ∧
      s3.endTransmit = s1.clock := by
  obtain ⟨f1, -, -, -, f5, f6, f7⟩ := sendLoop_frame net _ s bpi _ hsend s1 (Or.inl rfl)
  obtain ⟨s3, h3eq, -, h3e, h3c, -, -, -, h3r, h3s⟩ := afterChunk_goOn D s1 (by omega)
    (by rw [f5]; omega) (by rw [f5]; omega)
  refine ⟨s3, ?_, f1, ?_, ?_, ?_, h3e⟩
  · rw [mainLoop, hsend]
    simp only [h3eq]
  · rw [h3r, f5, f6]
    congr 1
    ring
  · rw [h3s, f5, f7]
    by_cases hlt : s1.clock < s.endTransmit + 50
    · rw [if_pos hlt, if_pos (by omega)]
      congr 1
      omega
    · rw [if_neg hlt, if_neg (by omega)]
  · rw [h3c, f5]
    omega

/-- Witness for C16: the first chunk of a run on the ideal network. -/
theorem pacing_sleep_interval_witness :
    ∃ s3, mainLoop idealNet 2 100 (3 + 1) Emitter.init = mainLoop idealNet 2 100 3 s3 ∧
      Emitter.init.clock ≤ ({ Emitter.init with calls := 1, written := 2 } : Emitter).clock ∧
      s3.remains =
        (50 - (((Emitter.init.clock : Int) - Emitter.init.endTransmit) +
          ((({ Emitter.init with calls := 1, written := 2 } : Emitter).clock : Int) -
            Emitter.init.clock))) :: Emitter.init.remains ∧
      s3.sleeps =
        (if 0 < 50 - (((Emitter.init.clock : Int) - Emitter.init.endTransmit) +
            ((({ Emitter.init with calls := 1, written := 2 } : Emitter).clock : Int) -
              Emitter.init.clock))
         then (50 - (((Emitter.init.clock : Int) - Emitter.init.endTransmit) +
            ((({ Emitter.init with calls := 1, written := 2 } : Emitter).clock : Int) -
              Emitter.init.clock))).toNat :: Emitter.init.sleeps
         else Emitter.init.sleeps) ∧
      s3.clock = ({ Emitter.init with calls := 1, written := 2 } : Emitter).clock +
        (50 - (((Emitter.init.clock : Int) - Emitter.init.endTransmit) +
          ((({ Emitter.init with calls := 1, written := 2 } : Emitter).clock : Int) -
            Emitter.init.clock))).toNat ∧
      s3.endTransmit = ({ Emitter.init with calls := 1, written := 2 } : Emitter).clock :=
  pacing_sleep_interval idealNet 2 100 3 Emitter.init
    { Emitter.init with calls := 1, written := 2 } (by decide) (by decide) rfl
    (by decide)

/-- C16 as stated fails: on the ideal network at 80 bytes/s for 100 ms every chunk is
transmitted in 0 ms, yet after the second chunk (which does not end the run) `remain` is 0
and there is no sleep: three chunks do not end the run and only two sleeps are made. -/
theorem pacing_sleep_counterexample :
    pacedRun idealNet 80 100 4 = some (.finished
      { clock := 100, calls := 4, written := 8, chunks := 4, startTransmit := 50,
        endTransmit := 100, remains := [50, 0, 50], sleeps := [50, 50] }) := by
  decide

end NoiseEmitter

namespace NoiseReceiver

theorem toInt32_of_range (x : Int) (h1 : -2 ^ 31 ≤ x) (h2 : x < 2 ^ 31) : toInt32 x = x := by
  unfold toInt32; omega

theorem toSizeT_of_range (x : Int) (h1 : 0 ≤ x) (h2 : x < 2 ^ 64) : (toSizeT x : Int) = x := by
  unfold toSizeT; omega

/-- The receive loop adds up the positive results in front of the first result `≤ 0`,
modulo `2 ^ 64`, and stops there. -/
theorem recvLoop_prefix (pre : List Int) :
    ∀ (stop : Int) (post : List Int) (t : Nat), (∀ r ∈ pre, 0 < r ∧ r < 2 ^ 31) →
      stop ≤ 0 → -2 ^ 31 ≤ stop → t < 2 ^ 64 →
      ∃ total, recvLoop (pre ++ stop :: post) t = some total ∧
        (total : Int) = (t + pre.sum) % 2 ^ 64 := by
  induction pre with
  | nil =>
    intro stop post t _ hs hm ht
    have h1 : toInt32 stop ≤ 0 := by rw [toInt32_of_range stop hm (by omega)]; exact hs
    refine ⟨t, by simp [recvLoop, h1], ?_⟩
    simp; omega
  | cons r pre ih =>
    intro stop post t hpre hs hm ht
    have hr := hpre r (List.mem_cons_self _ _)
    have h1 : toInt32 r = r := toInt32_of_range r (by omega) hr.2
    have h2 : ¬ (r ≤ 0) := by omega
    have h3 := toSizeT_of_range r (by omega) (by omega)
    obtain ⟨total, htot, hval⟩ := ih stop post ((t + toSizeT r) % 2 ^ 64)
      (fun x hx => hpre x (List.mem_cons_of_mem _ hx)) hs hm (Nat.mod_lt _ (by norm_num))
    refine ⟨total, ?_, ?_⟩
    · rw [List.cons_append, recvLoop]
      simp only [h1, h2, if_false]
      exact htot
    · rw [hval, List.sum_cons]
      push_cast
      rw [h3]
      omega

/-- C3 (as amended): over a sequence of `recv` results made of positive results of at most
`BUFFER_SIZE`, then a first result `stop ≤ 0` (zero or negative, any value `recv` returns),
then anything, `ThreadFunc` ends its loop at `stop` and passes to `GetBitrate` the sum of the
results in front of `stop` reduced modulo `2 ^ 64` (the sum itself whenever it is below
`2 ^ 64`); the outcome is the same as for a `stop` of `0` with nothing after it, so a zero
and a negative result end the loop identically and neither is added. -/
theorem threadFunc_total_received (pre post : List Int) (stop totalElapsed : Int)
    (hpre : ∀ r ∈ pre, 0 < r ∧ r ≤ BUFFER_SIZE) (hstop : stop ≤ 0) (hmin : -2 ^ 31 ≤ stop) :
    ∃ rep, ThreadFunc (pre ++ stop :: post) totalElapsed = some rep ∧
      (rep.bytes : Int) = pre.sum % 2 ^ 64 ∧
      (pre.sum < 2 ^ 64 → (rep.bytes : Int) = pre.sum) ∧
      ThreadFunc (pre ++ stop :: post) totalElapsed = ThreadFunc (pre ++ [0]) totalElapsed := by
  have hpre2 : ∀ r ∈ pre, 0 < r ∧ r < 2 ^ 31 := fun r hr =>
    ⟨(hpre r hr).1, lt_of_le_of_lt (hpre r hr).2 (by unfold BUFFER_SIZE; norm_num)⟩
  obtain ⟨t1, h1, v1⟩ := recvLoop_prefix pre stop post 0 hpre2 hstop hmin (by norm_num)
  obtain ⟨t2, h2, v2⟩ := recvLoop_prefix pre 0 [] 0 hpre2 le_rfl (by norm_num) (by norm_num)
  have ht : t1 = t2 := by
    have : (t1 : Int) = t2 := by rw [v1, v2]
    exact_mod_cast this
  have hnn : 0 ≤ pre.sum := List.sum_nonneg (fun r hr => le_of_lt (hpre r hr).1)
  have hT : ThreadFunc (pre ++ stop :: post) totalElapsed = some
      { bytes := t1, msecs := toSizeT totalElapsed,
        bitrate := GetBitrate t1 (toSizeT totalElapsed) } := by
    simp only [ThreadFunc, h1]
  refine ⟨_, hT, ?_, ?_, ?_⟩
  · simpa using v1
  · intro hlt
    simp only [v1]
    push_cast
    omega
  · rw [hT]; simp only [ThreadFunc, h2, ht]

/-- Witness for C3: three reads of 1000, 150000000 and 24 bytes, then an error return. -/
theorem threadFunc_total_received_witness :
    ∃ rep, ThreadFunc ([1000, 150000000, 24] ++ (-1) :: [7]) 12 = some rep ∧
      (rep.bytes : Int) = ([1000, 150000000, 24] : List Int).sum % 2 ^ 64 ∧
      (([1000, 150000000, 24] : List Int).sum < 2 ^ 64 →
        (rep.bytes : Int) = ([1000, 150000000, 24] : List Int).sum) ∧
      ThreadFunc ([1000, 150000000, 24] ++ (-1) :: [7]) 12 =
        ThreadFunc ([1000, 150000000, 24] ++ [0]) 12 :=
  threadFunc_total_received [1000, 150000000, 24] [7] (-1) 12
    (by unfold BUFFER_SIZE; decide) (by decide) (by decide)

/-- A run of `n` reads of `c` bytes each, closed by a read of 0. -/
theorem threadFunc_replicate (n : Nat) (c totalElapsed : Int) (hc : 0 < c)
    (hc2 : c ≤ (BUFFER_SIZE : Int)) :
    (∀ r ∈ List.replicate n c ++ [0], r ≤ (BUFFER_SIZE : Int)) ∧
    ∃ rep, ThreadFunc (List.replicate n c ++ [0]) totalElapsed = some rep ∧
      (rep.bytes : Int) = (n * c) % 2 ^ 64 ∧ (List.replicate n c).sum = n * c := by
  have hB : (BUFFER_SIZE : Int) < 2 ^ 31 := by unfold BUFFER_SIZE; norm_num
  have hpre : ∀ r ∈ List.replicate n c, 0 < r ∧ r < 2 ^ 31 := by
    intro r hr
    rw [List.eq_of_mem_replicate hr]; exact ⟨hc, lt_of_le_of_lt hc2 hB⟩
  obtain ⟨t, h, v⟩ := recvLoop_prefix (List.replicate n c) 0 [] 0 hpre le_rfl (by norm_num)
    (by norm_num)
  have hsum : (List.replicate n c).sum = n * c := by
    rw [List.sum_replicate]; simp
  refine ⟨?_, ⟨t, toSizeT totalElapsed, GetBitrate t (toSizeT totalElapsed)⟩, ?_, ?_, hsum⟩
  · intro r hr
    rcases List.mem_append.mp hr with h1 | h1
    · rw [List.eq_of_mem_replicate h1]; exact hc2
    · rw [List.mem_singleton.mp h1]; unfold BUFFER_SIZE; norm_num
  · simp only [ThreadFunc, h]
  · rw [v, hsum]; simp

/-- C3 as stated fails for a sequence long enough to wrap the `size_t` total:
122978293825 reads of `BUFFER_SIZE` bytes followed by a 0 sum to `2 ^ 64 + 40448384`,
and `ThreadFunc` passes 40448384 to `GetBitrate`. -/
theorem threadFunc_total_counterexample :
    (∀ r ∈ List.replicate 122978293825 (150000000 : Int) ++ [0], r ≤ (BUFFER_SIZE : Int)) ∧
    ∃ rep, ThreadFunc (List.replicate 122978293825 (150000000 : Int) ++ [0]) 0 = some rep ∧
      (rep.bytes : Int) = 40448384 ∧
      (rep.bytes : Int) ≠ (List.replicate 122978293825 (150000000 : Int)).sum :=
  match threadFunc_replicate 122978293825 150000000 0 (by norm_num)
      (by unfold BUFFER_SIZE; norm_num) with
  | ⟨h1, rep, h2, h3, h4⟩ =>
    ⟨h1, rep, h2, h3.trans (by norm_num), fun h => absurd (h3.symm.trans (h.trans h4))
      (by norm_num)⟩

/-- C9, at the failing input: after the first successful accept (socket 5) the handler is
started and the `std::thread` object, still joinable, goes out of scope: the process is
terminated. -/
theorem acceptLoop_terminated_after_handler :
    acceptLoop Acceptor.init [5] = { running := false, handlers := [5], failures := 0 } ∧
    Thread.start.joinable = true := by
  decide

/-- C8, at the failing input: the failed accept is passed over (the loop goes on and socket 5
gets its handler), but the process is terminated when the thread object of that handler goes out
of scope, so the later successful accept (socket 7) is never handled. -/
theorem acceptLoop_later_accept_lost :
    acceptLoop Acceptor.init [-1, 5, 7] = { running := false, handlers := [5], failures := 1 } ∧
    acceptStep Acceptor.init (-1) = { running := true, handlers := [], failures := 1 } := by
  decide

end NoiseReceiver

/-! ### Facts about the `double` model -/

theorem bitsAux_spec : ∀ (fuel n : Nat), n ≤ fuel →
    (n = 0 → bitsAux fuel n = 0) ∧
    (0 < n → 2 ^ (bitsAux fuel n - 1) ≤ n ∧ n < 2 ^ bitsAux fuel n ∧ 0 < bitsAux fuel n) := by
  intro fuel
  induction fuel with
  | zero =>
    intro n hn
    have : n = 0 := by omega
    subst this
    exact ⟨fun _ => rfl, fun h => absurd h (by omega)⟩
  | succ fuel ih =>
    intro n hn
    refine ⟨fun h => by simp [bitsAux, h], fun hpos => ?_⟩
    have hne : n ≠ 0 := by omega
    simp only [bitsAux, hne, if_false]
    obtain ⟨i0, i1⟩ := ih (n / 2) (by omega)
    by_cases h2 : n / 2 = 0
    · rw [i0 h2]
      have : n = 1 := by omega
      subst this
      simp
    · obtain ⟨j1, j2, j3⟩ := i1 (by omega)
      refine ⟨?_, ?_, by omega⟩
      · have hk : bitsAux fuel (n / 2) + 1 - 1 = (bitsAux fuel (n / 2) - 1) + 1 := by omega
        rw [hk, pow_succ]
        omega
      · rw [pow_succ]
        omega

theorem bits_spec (n : Nat) (h : 0 < n) : 2 ^ (bits n - 1) ≤ n ∧ n < 2 ^ bits n ∧ 0 < bits n :=
  (bitsAux_spec n n le_rfl).2 h

/-- `pow2le` decides `2 ^ k ≤ a / b`. -/
theorem pow2le_iff (k : Int) (a b : Nat) (hb : 0 < b) :
    pow2le k a b = true ↔ (2 : ℚ) ^ k ≤ (a : ℚ) / b := by
  have hbq : (0 : ℚ) < b := by exact_mod_cast hb
  unfold pow2le
  by_cases hk : 0 ≤ k
  · obtain ⟨n, rfl⟩ := Int.eq_ofNat_of_zero_le hk
    simp only [hk, if_true, Int.toNat_ofNat, decide_eq_true_eq, zpow_natCast]
    rw [le_div_iff₀ hbq]
    constructor
    · intro h
      have : ((b * 2 ^ n : Nat) : ℚ) ≤ a := by exact_mod_cast h
      push_cast at this
      linarith
    · intro h
      have : ((b * 2 ^ n : Nat) : ℚ) ≤ a := by push_cast; linarith
      exact_mod_cast this
  · obtain ⟨n, hn⟩ : ∃ n : Nat, k = -(n : Int) := ⟨(-k).toNat, by omega⟩
    subst hn
    have h2 : (0 : ℚ) < 2 ^ n := by positivity
    simp only [hk, if_false, neg_neg, Int.toNat_ofNat, decide_eq_true_eq, zpow_neg,
      zpow_natCast]
    rw [le_div_iff₀ hbq, inv_mul_le_iff₀ h2]
    constructor
    · intro h
      have : ((b : Nat) : ℚ) ≤ ((a * 2 ^ n : Nat) : ℚ) := by exact_mod_cast h
      push_cast at this
      linarith
    · intro h
      have : ((b : Nat) : ℚ) ≤ ((a * 2 ^ n : Nat) : ℚ) := by push_cast; linarith
      exact_mod_cast this

theorem zpow_bracket_unique (v : ℚ) (k j : Int) (h1 : (2 : ℚ) ^ k ≤ v) (h2 : v < (2 : ℚ) ^ (k + 1))
    (h3 : (2 : ℚ) ^ j ≤ v) (h4 : v < (2 : ℚ) ^ (j + 1)) : k = j := by
  have a1 : k < j + 1 :=
    (zpow_lt_zpow_iff_right₀ (by norm_num : (1 : ℚ) < 2)).mp (lt_of_le_of_lt h1 h4)
  have a2 : j < k + 1 :=
    (zpow_lt_zpow_iff_right₀ (by norm_num : (1 : ℚ) < 2)).mp (lt_of_le_of_lt h3 h2)
  omega

theorem bits_bounds (n : Nat) (h : 0 < n) :
    (2 : ℚ) ^ ((bits n : Int) - 1) ≤ n ∧ (n : ℚ) < (2 : ℚ) ^ (bits n : Int) := by
  obtain ⟨h1, h2, h3⟩ := bits_spec n h
  have e : ((bits n : Int) - 1) = ((bits n - 1 : Nat) : Int) := by omega
  rw [e, zpow_natCast, zpow_natCast]
  exact ⟨by exact_mod_cast h1, by exact_mod_cast h2⟩

/-- `expo a b` is the binary exponent of `a / b`. -/
theorem expo_spec (a b : Nat) (ha : 0 < a) (hb : 0 < b) :
    (2 : ℚ) ^ expo a b ≤ (a : ℚ) / b ∧ (a : ℚ) / b < (2 : ℚ) ^ (expo a b + 1) := by
  have hbq : (0 : ℚ) < b := by exact_mod_cast hb
  obtain ⟨a1, a2⟩ := bits_bounds a ha
  obtain ⟨b1, b2⟩ := bits_bounds b hb
  have two : (2 : ℚ) ≠ 0 := by norm_num
  have up : (a : ℚ) / b < (2 : ℚ) ^ ((bits a : Int) - bits b + 1) := by
    rw [div_lt_iff₀ hbq]
    calc (a : ℚ) < (2 : ℚ) ^ (bits a : Int) := a2
      _ = (2 : ℚ) ^ ((bits a : Int) - bits b + 1) * (2 : ℚ) ^ ((bits b : Int) - 1) := by
          rw [← zpow_add₀ two]; congr 1; ring
      _ ≤ (2 : ℚ) ^ ((bits a : Int) - bits b + 1) * b :=
          mul_le_mul_of_nonneg_left b1 (by positivity)
  have lo : (2 : ℚ) ^ ((bits a : Int) - bits b - 1) ≤ (a : ℚ) / b := by
    rw [le_div_iff₀ hbq]
    calc (2 : ℚ) ^ ((bits a : Int) - bits b - 1) * b
        ≤ (2 : ℚ) ^ ((bits a : Int) - bits b - 1) * (2 : ℚ) ^ (bits b : Int) :=
          mul_le_mul_of_nonneg_left (le_of_lt b2) (by positivity)
      _ = (2 : ℚ) ^ ((bits a : Int) - 1) := by
          rw [← zpow_add₀ two]; congr 1; ring
      _ ≤ a := a1
  unfold expo
  by_cases hp : pow2le ((bits a : Int) - bits b) a b = true
  · simp only [hp, if_true]
    exact ⟨(pow2le_iff _ a b hb).mp hp, up⟩
  · have := (pow2le_iff _ a b hb).not.mp hp
    simp only [if_neg hp, sub_add_cancel]
    exact ⟨lo, not_le.mp this⟩

theorem expo_eq (a b : Nat) (k : Int) (ha : 0 < a) (hb : 0 < b) (h1 : (2 : ℚ) ^ k ≤ (a : ℚ) / b)
    (h2 : (a : ℚ) / b < (2 : ℚ) ^ (k + 1)) : expo a b = k := by
  obtain ⟨e1, e2⟩ := expo_spec a b ha hb
  exact zpow_bracket_unique _ _ _ e1 e2 h1 h2

theorem roundHalfEven_mul (m c : Nat) (hc : 0 < c) : roundHalfEven (m * c) c = m := by
  unfold roundHalfEven
  simp only [Nat.mul_mod_left, Nat.mul_div_cancel _ hc, Nat.mul_zero]
  rw [if_pos hc]

/-- A quotient that is exactly a normal `double` is converted to that `double`. -/
theorem ofRatio_exact (neg : Bool) (a b m : Nat) (e : Int) (hb : 0 < b)
    (hm1 : 2 ^ 52 ≤ m) (hm2 : m < 2 ^ 53) (he1 : -1074 ≤ e) (he2 : e ≤ 971)
    (hv : (a : ℚ) / b = m * (2 : ℚ) ^ e) : Double.ofRatio neg a b = .finite neg m e := by
  have hbq : (0 : ℚ) < b := by exact_mod_cast hb
  have two : (2 : ℚ) ≠ 0 := by norm_num
  have hmq1 : (2 : ℚ) ^ (52 : Int) ≤ m := by
    rw [show (52 : Int) = ((52 : Nat) : Int) by rfl, zpow_natCast]; exact_mod_cast hm1
  have hmq2 : (m : ℚ) < (2 : ℚ) ^ (53 : Int) := by
    rw [show (53 : Int) = ((53 : Nat) : Int) by rfl, zpow_natCast]; exact_mod_cast hm2
  have hpe : (0 : ℚ) < (2 : ℚ) ^ e := by positivity
  have ha : 0 < a := by
    rcases Nat.eq_zero_or_pos a with h | h
    · subst h
      have hm0 : (0 : ℚ) < m := lt_of_lt_of_le (by positivity) hmq1
      have : (0 : ℚ) < m * (2 : ℚ) ^ e := mul_pos hm0 hpe
      rw [← hv] at this
      simp at this
    · exact h
  have hexpo : expo a b = 52 + e := by
    apply expo_eq a b _ ha hb
    · rw [hv, zpow_add₀ two]
      exact mul_le_mul_of_nonneg_right hmq1 (le_of_lt hpe)
    · rw [hv, show 52 + e + 1 = 53 + e by ring, zpow_add₀ two]
      exact mul_lt_mul_of_pos_right hmq2 hpe
  have hmax : max (expo a b - 52) (-1074) = e := by rw [hexpo]; omega
  have hround : (if 0 ≤ e then roundHalfEven a (b * 2 ^ e.toNat)
      else roundHalfEven (a * 2 ^ (-e).toNat) b) = m := by
    by_cases h0 : 0 ≤ e
    · obtain ⟨n, rfl⟩ := Int.eq_ofNat_of_zero_le h0
      rw [if_pos h0, Int.toNat_ofNat]
      rw [zpow_natCast, div_eq_iff (ne_of_gt hbq)] at hv
      have : a = m * (b * 2 ^ n) := by
        have h : (a : ℚ) = ((m * (b * 2 ^ n) : Nat) : ℚ) := by push_cast; rw [hv]; ring
        exact_mod_cast h
      rw [this]
      exact roundHalfEven_mul m _ (by positivity)
    · obtain ⟨n, hn⟩ : ∃ n : Nat, e = -(n : Int) := ⟨(-e).toNat, by omega⟩
      subst hn
      rw [if_neg h0, neg_neg, Int.toNat_ofNat]
      have h2 : (0 : ℚ) < 2 ^ n := by positivity
      rw [zpow_neg, zpow_natCast, div_eq_iff (ne_of_gt hbq)] at hv
      have : a * 2 ^ n = m * b := by
        have h : ((a * 2 ^ n : Nat) : ℚ) = ((m * b : Nat) : ℚ) := by
          push_cast; rw [hv]; field_simp
        exact_mod_cast h
      rw [this]
      exact roundHalfEven_mul m _ hb
  unfold Double.ofRatio
  rw [if_neg (by omega)]
  simp only [hmax, hround]
  rw [if_neg (by omega), if_neg (by omega), if_neg (by omega)]

theorem normal_mantissa (n : Nat) (h0 : 0 < n) (h : n < 2 ^ 53) :
    bits n ≤ 53 ∧ 2 ^ 52 ≤ n * 2 ^ (53 - bits n) ∧ n * 2 ^ (53 - bits n) < 2 ^ 53 := by
  obtain ⟨h1, h2, h3⟩ := bits_spec n h0
  have hB : bits n ≤ 53 := by
    by_contra hc
    have : 2 ^ 53 ≤ 2 ^ (bits n - 1) := Nat.pow_le_pow_right (by norm_num) (by omega)
    omega
  refine ⟨hB, ?_, ?_⟩
  · calc 2 ^ 52 = 2 ^ (bits n - 1) * 2 ^ (53 - bits n) := by
          rw [← pow_add]; congr 1; omega
      _ ≤ n * 2 ^ (53 - bits n) := Nat.mul_le_mul_right _ h1
  · calc n * 2 ^ (53 - bits n) < 2 ^ bits n * 2 ^ (53 - bits n) :=
          Nat.mul_lt_mul_of_pos_right h2 (by positivity)
      _ = 2 ^ 53 := by rw [← pow_add]; congr 1; omega

/-- A quotient that is exactly `n * 2 ^ j` with `n < 2 ^ 53` is converted without rounding. -/
theorem ofRatio_dyadic (neg : Bool) (a b n : Nat) (j : Int) (hb : 0 < b) (h0 : 0 < n)
    (h : n < 2 ^ 53) (hj1 : -1021 ≤ j) (hj2 : j ≤ 971)
    (hv : (a : ℚ) / b = n * (2 : ℚ) ^ j) : Double.ofRatio neg a b = Double.dyadic neg n j := by
  obtain ⟨hB, m1, m2⟩ := normal_mantissa n h0 h
  have hBpos := (bits_spec n h0).2.2
  have two : (2 : ℚ) ≠ 0 := by norm_num
  unfold Double.dyadic
  apply ofRatio_exact neg a b _ _ hb m1 m2 (by omega) (by omega)
  rw [hv]
  push_cast
  have e : ((bits n : Int) - 53 + j) = -((53 - bits n : Nat) : Int) + j := by omega
  rw [e, zpow_add₀ two, zpow_neg, zpow_natCast]
  field_simp
  ring

theorem ofNat_dyadic (n : Nat) (h0 : 0 < n) (h : n < 2 ^ 53) :
    Double.ofNat n = Double.dyadic false n 0 :=
  ofRatio_dyadic false n 1 n 0 Nat.one_pos h0 h (by norm_num) (by norm_num) (by simp)

theorem dyadic_val (n : Nat) (j : Int) (h0 : 0 < n) (h : n < 2 ^ 53) :
    ((n * 2 ^ (53 - bits n) : Nat) : ℚ) * (2 : ℚ) ^ ((bits n : Int) - 53 + j) = n * (2 : ℚ) ^ j := by
  obtain ⟨hB, -, -⟩ := normal_mantissa n h0 h
  have two : (2 : ℚ) ≠ 0 := by norm_num
  have e : ((bits n : Int) - 53 + j) = -((53 - bits n : Nat) : Int) + j := by omega
  push_cast
  rw [e, zpow_add₀ two, zpow_neg, zpow_natCast]
  field_simp
  ring

theorem dyadic_value (neg : Bool) (n : Nat) (j : Int) (h0 : 0 < n) (h : n < 2 ^ 53) :
    (Double.dyadic neg n j).value = some ((if neg then -1 else 1) * (n : ℚ) * (2 : ℚ) ^ j) := by
  have hv := dyadic_val n j h0 h
  simp only [Double.dyadic, Double.value]
  rw [mul_assoc, hv, mul_assoc]

/-- Division of finite doubles whose quotient is exactly `n * 2 ^ j`. -/
theorem div_exact (s1 s2 : Bool) (m1 m2 : Nat) (e1 e2 : Int) (n : Nat) (j : Int)
    (hm2 : 0 < m2) (h0 : 0 < n) (h : n < 2 ^ 53) (hj1 : -1021 ≤ j) (hj2 : j ≤ 971)
    (hv : (m1 : ℚ) * (2 : ℚ) ^ e1 / (m2 * (2 : ℚ) ^ e2) = n * (2 : ℚ) ^ j) :
    Double.div (.finite s1 m1 e1) (.finite s2 m2 e2) = some (Double.dyadic (xor s1 s2) n j) := by
  have two : (2 : ℚ) ≠ 0 := by norm_num
  have hm2q : (0 : ℚ) < m2 := by exact_mod_cast hm2
  obtain ⟨k, rfl⟩ : ∃ k, m2 = k + 1 := ⟨m2 - 1, by omega⟩
  simp only [Double.div]
  congr 1
  by_cases hd : 0 ≤ e1 - e2
  · rw [if_pos hd]
    apply ofRatio_dyadic _ _ _ n j hm2 h0 h hj1 hj2
    rw [← hv]
    obtain ⟨d, hd2⟩ := Int.eq_ofNat_of_zero_le hd
    have he1 : e1 = e2 + d := by omega
    rw [hd2, Int.toNat_ofNat, he1, zpow_add₀ two, zpow_natCast]
    push_cast
    have : (0 : ℚ) < (2 : ℚ) ^ e2 := by positivity
    field_simp
    ring
  · rw [if_neg hd]
    have hpos : 0 < (k + 1) * 2 ^ (e2 - e1).toNat := by positivity
    apply ofRatio_dyadic _ _ _ n j hpos h0 h hj1 hj2
    rw [← hv]
    obtain ⟨d, hd2⟩ : ∃ d : Nat, e2 - e1 = d := ⟨(e2 - e1).toNat, by omega⟩
    have he2 : e2 = e1 + d := by omega
    rw [hd2, Int.toNat_ofNat, he2, zpow_add₀ two, zpow_natCast]
    push_cast
    have : (0 : ℚ) < (2 : ℚ) ^ e1 := by positivity
    field_simp
    ring

/-- Multiplication of finite doubles whose product is exactly `n * 2 ^ j`. -/
theorem mul_exact (s1 s2 : Bool) (m1 m2 : Nat) (e1 e2 : Int) (n : Nat) (j : Int)
    (h0 : 0 < n) (h : n < 2 ^ 53) (hj1 : -1021 ≤ j) (hj2 : j ≤ 971)
    (hv : (m1 : ℚ) * (2 : ℚ) ^ e1 * (m2 * (2 : ℚ) ^ e2) = n * (2 : ℚ) ^ j) :
    Double.mul (.finite s1 m1 e1) (.finite s2 m2 e2) = Double.dyadic (xor s1 s2) n j := by
  have two : (2 : ℚ) ≠ 0 := by norm_num
  simp only [Double.mul, Double.ofScaled]
  by_cases hd : 0 ≤ e1 + e2
  · rw [if_pos hd]
    apply ofRatio_dyadic _ _ _ n j Nat.one_pos h0 h hj1 hj2
    rw [← hv]
    obtain ⟨d, hd2⟩ := Int.eq_ofNat_of_zero_le hd
    rw [hd2, Int.toNat_ofNat]
    push_cast
    rw [div_one, mul_mul_mul_comm, ← zpow_add₀ two, hd2, zpow_natCast]
  · rw [if_neg hd]
    have hpos : 0 < 2 ^ (-(e1 + e2)).toNat := by positivity
    apply ofRatio_dyadic _ _ _ n j hpos h0 h hj1 hj2
    rw [← hv]
    obtain ⟨d, hd2⟩ : ∃ d : Nat, -(e1 + e2) = d := ⟨(-(e1 + e2)).toNat, by omega⟩
    have he : e1 + e2 = -(d : Int) := by omega
    rw [hd2, Int.toNat_ofNat, mul_mul_mul_comm, ← zpow_add₀ two, he, zpow_neg, zpow_natCast]
    push_cast
    field_simp

theorem roundHalfEven_pos (a b : Nat) (hb : 0 < b) (h : b ≤ a) : 0 < roundHalfEven a b := by
  have hq : 0 < a / b := Nat.div_pos h hb
  unfold roundHalfEven
  simp only []
  split
  · exact hq
  · split
    · omega
    · split <;> omega

theorem ofRatio_finish_shape (m : Nat) (e : Int) (hm : 0 < m) :
    (∃ m1 e1, (if 971 < (if m = 2 ^ 53 then e + 1 else e) then Double.inf false
        else Double.finite false (if m = 2 ^ 53 then 2 ^ 52 else m)
          (if m = 2 ^ 53 then e + 1 else e)) = .finite false m1 e1 ∧ 0 < m1) ∨
    (if 971 < (if m = 2 ^ 53 then e + 1 else e) then Double.inf false
        else Double.finite false (if m = 2 ^ 53 then 2 ^ 52 else m)
          (if m = 2 ^ 53 then e + 1 else e)) = .inf false := by
  by_cases h1 : 971 < (if m = 2 ^ 53 then e + 1 else e)
  · exact Or.inr (if_pos h1)
  · refine Or.inl ⟨_, _, if_neg h1, ?_⟩
    split
    · norm_num
    · exact hm

/-- Converting a positive integer never gives zero (nor NaN). -/
theorem ofNat_pos_shape (a : Nat) (ha : 0 < a) :
    (∃ m e, Double.ofNat a = .finite false m e ∧ 0 < m) ∨ Double.ofNat a = .inf false := by
  obtain ⟨k1, -⟩ := expo_spec a 1 ha Nat.one_pos
  have hm : 0 < (if 0 ≤ max (expo a 1 - 52) (-1074)
      then roundHalfEven a (1 * 2 ^ (max (expo a 1 - 52) (-1074)).toNat)
      else roundHalfEven (a * 2 ^ (-(max (expo a 1 - 52) (-1074))).toNat) 1) := by
    by_cases h0 : 0 ≤ max (expo a 1 - 52) (-1074)
    · rw [if_pos h0]
      apply roundHalfEven_pos _ _ (by positivity)
      obtain ⟨d, hd⟩ := Int.eq_ofNat_of_zero_le h0
      rw [hd, Int.toNat_ofNat, one_mul]
      have hk : (d : Int) ≤ expo a 1 := by omega
      have h1 : (2 : ℚ) ^ (d : Int) ≤ (2 : ℚ) ^ expo a 1 :=
        zpow_le_zpow_right₀ (by norm_num) hk
      have h2 : ((2 ^ d : Nat) : ℚ) ≤ a := by
        push_cast
        rw [← zpow_natCast]
        calc (2 : ℚ) ^ (d : Int) ≤ (2 : ℚ) ^ expo a 1 := h1
          _ ≤ (a : ℚ) / ((1 : Nat) : ℚ) := k1
          _ = a := by simp
      exact_mod_cast h2
    · rw [if_neg h0]
      apply roundHalfEven_pos _ _ Nat.one_pos
      exact Nat.mul_pos ha (by positivity)
  unfold Double.ofNat Double.ofRatio
  rw [if_neg (by omega)]
  exact ofRatio_finish_shape _ _ hm

theorem div_zero_ofNat (a : Nat) (ha : 0 < a) :
    Double.div Double.zero (Double.ofNat a) = some Double.zero := by
  rcases ofNat_pos_shape a ha with ⟨m, e, h, hm⟩ | h
  · obtain ⟨k, rfl⟩ : ∃ k, m = k + 1 := ⟨m - 1, by omega⟩
    rw [h]
    simp [Double.zero, Double.div, Double.ofRatio]
  · rw [h]
    simp [Double.zero, Double.div]

namespace NoiseReceiver

/-- When the product wraps to 0 the bitrate is 0. -/
theorem getBitrate_zero_num (bytes msecs : Nat) (hm : 0 < msecs)
    (h : bytes * 8 * 1000 % 2 ^ 64 = 0) : GetBitrate bytes msecs = some Double.zero := by
  have hnum : (bytes * CHAR_BIT % 2 ^ 64 * MILLISECONDS_PER_SECOND) % 2 ^ 64 = 0 := by
    unfold CHAR_BIT MILLISECONDS_PER_SECOND
    rw [Nat.mod_mul_mod, h]
  unfold GetBitrate
  rw [if_pos hm, hnum]
  have : Double.ofNat 0 = Double.zero := by simp [Double.ofNat, Double.ofRatio, Double.zero]
  rw [this]
  exact div_zero_ofNat msecs hm

/-- C10: for every elapsed time, `GetBitrate(0, msecs)` is exactly 0 and is obtained without
a division by zero (`none` in the model); so a handler whose first `recv` returns 0 reports a
bitrate of 0, whatever the elapsed time. -/
theorem getBitrate_zero_bytes (msecs : Nat) (totalElapsed : Int) (rest : List Int) :
    GetBitrate 0 msecs = some Double.zero ∧
    ThreadFunc (0 :: rest) totalElapsed =
      some { bytes := 0, msecs := toSizeT totalElapsed, bitrate := some Double.zero } := by
  have key : ∀ ms, GetBitrate 0 ms = some Double.zero := by
    intro ms
    unfold GetBitrate
    by_cases h : ms > 0
    · rw [if_pos h]
      have : Double.ofNat (0 * CHAR_BIT % 2 ^ 64 * MILLISECONDS_PER_SECOND % 2 ^ 64)
          = Double.zero := by
        simp [Double.ofNat, Double.ofRatio, Double.zero]
      rw [this]
      exact div_zero_ofNat ms h
    · rw [if_neg h]
  refine ⟨key msecs, ?_⟩
  have h0 : toInt32 0 = 0 := by decide
  simp only [ThreadFunc, recvLoop, h0, le_refl, if_true, key]

/-- C2 (as amended): for every byte count and every `msecs > 0`, `GetBitrate` divides the
product `bytes * 8 * 1000` reduced modulo `2 ^ 64` (converted to `double`) by `msecs`
(converted to `double`); when `bytes * 8 * 1000 < 2 ^ 53` and `msecs` divides it, the result is
exactly the quotient `bytes * 8 * 1000 / msecs`. -/
theorem getBitrate_quotient (bytes msecs : Nat) (hm : 0 < msecs) :
    GetBitrate bytes msecs =
      Double.div (Double.ofNat (bytes * 8 * 1000 % 2 ^ 64)) (Double.ofNat msecs) ∧
    (bytes * 8 * 1000 < 2 ^ 53 → msecs ∣ bytes * 8 * 1000 →
      ∃ x, GetBitrate bytes msecs = some x ∧
        x.value = some (((bytes : ℚ) * 8 * 1000) / msecs)) := by
  have hnum : (bytes * CHAR_BIT % 2 ^ 64 * MILLISECONDS_PER_SECOND) % 2 ^ 64
      = bytes * 8 * 1000 % 2 ^ 64 := by
    unfold CHAR_BIT MILLISECONDS_PER_SECOND
    rw [Nat.mod_mul_mod]
  have hG : GetBitrate bytes msecs =
      Double.div (Double.ofNat (bytes * 8 * 1000 % 2 ^ 64)) (Double.ofNat msecs) := by
    unfold GetBitrate
    rw [if_pos hm, hnum]
  refine ⟨hG, fun hN hdiv => ?_⟩
  have hmq : (0 : ℚ) < msecs := by exact_mod_cast hm
  rw [hG, Nat.mod_eq_of_lt (lt_trans hN (by norm_num))]
  rcases Nat.eq_zero_or_pos (bytes * 8 * 1000) with h0 | hpos
  · have hb : bytes = 0 := by omega
    subst hb
    refine ⟨Double.zero, ?_, ?_⟩
    · have : Double.ofNat (0 * 8 * 1000) = Double.zero := by
        simp [Double.ofNat, Double.ofRatio, Double.zero]
      rw [this]
      exact div_zero_ofNat msecs hm
    · simp [Double.zero, Double.value]
  · obtain ⟨q, hq⟩ := hdiv
    have hqpos : 0 < q := by
      rcases Nat.eq_zero_or_pos q with h | h
      · subst h; omega
      · exact h
    have hmle : msecs ≤ bytes * 8 * 1000 := by
      rw [hq]; exact Nat.le_mul_of_pos_right _ hqpos
    have hqle : q ≤ bytes * 8 * 1000 := by
      rw [hq]; exact Nat.le_mul_of_pos_left _ hm
    have hm53 : msecs < 2 ^ 53 := lt_of_le_of_lt hmle hN
    have hq53 : q < 2 ^ 53 := lt_of_le_of_lt hqle hN
    refine ⟨Double.dyadic false q 0, ?_, ?_⟩
    · rw [ofNat_dyadic _ hpos hN, ofNat_dyadic _ hm hm53]
      unfold Double.dyadic
      have hx := div_exact false false
        (bytes * 8 * 1000 * 2 ^ (53 - bits (bytes * 8 * 1000))) (msecs * 2 ^ (53 - bits msecs))
        ((bits (bytes * 8 * 1000) : Int) - 53 + 0) ((bits msecs : Int) - 53 + 0) q 0
        (Nat.mul_pos hm (by positivity)) hqpos hq53 (by norm_num) (by norm_num)
        (by
          rw [dyadic_val _ 0 hpos hN, dyadic_val _ 0 hm hm53]
          have : ((bytes * 8 * 1000 : Nat) : ℚ) = (msecs : ℚ) * q := by exact_mod_cast hq
          rw [this]
          field_simp)
      simpa [Double.dyadic] using hx
    · rw [dyadic_value false q 0 hqpos hq53]
      have : (bytes : ℚ) * 8 * 1000 = (msecs : ℚ) * q := by exact_mod_cast hq
      rw [this]
      congr 1
      field_simp

/-- Witness for C2: 1000000 bytes in 2000 ms. -/
theorem getBitrate_quotient_witness :
    GetBitrate 1000000 2000 =
      Double.div (Double.ofNat (1000000 * 8 * 1000 % 2 ^ 64)) (Double.ofNat 2000) ∧
    ∃ x, GetBitrate 1000000 2000 = some x ∧
      x.value = some ((((1000000 : Nat) : ℚ) * 8 * 1000) / (2000 : Nat)) :=
  ⟨(getBitrate_quotient 1000000 2000 (by decide)).1,
   (getBitrate_quotient 1000000 2000 (by decide)).2 (by decide) (by decide)⟩

/-- C2 as stated fails where the product wraps: `2 ^ 61` bytes in 1 ms give a numerator
`2 ^ 61 * 8 * 1000 mod 2 ^ 64 = 0` and a bitrate of 0, not `2 ^ 61 * 8 * 1000`. -/
theorem getBitrate_counterexample :
    GetBitrate (2 ^ 61) 1 = some Double.zero ∧ Double.zero.value = some 0 ∧
    (((2 ^ 61 : Nat) : ℚ) * 8 * 1000) / ((1 : Nat) : ℚ) ≠ 0 := by
  refine ⟨?_, by simp [Double.zero, Double.value], by norm_num⟩
  have h := (getBitrate_zero_num (2 ^ 61) 1 (by decide) (by decide))
  exact h

set_option maxRecDepth 100000 in
/-- C11, at the failing input: 1000 bytes received and an elapsed time of -1 ms.  The signed
count becomes `msecs = 2 ^ 64 - 1` in `GetBitrate`, the guard `msecs > 0` passes, and the
reported bitrate is `8000000 / 2 ^ 64`, not 0. -/
theorem threadFunc_negative_elapsed :
    ThreadFunc [1000, 0] (-1) = some
      { bytes := 1000, msecs := 2 ^ 64 - 1,
        bitrate := some (Double.finite false (8000000 * 2 ^ 30) (-94)) } ∧
    Double.finite false (8000000 * 2 ^ 30) (-94) ≠ Double.zero := by
  decide

end NoiseReceiver


theorem toSizeT_dyadic (n k : Nat) (h0 : 0 < n) (h : n < 2 ^ 53) :
    (Double.dyadic false n (-(k : Int))).toSizeT = some (n / 2 ^ k) := by
  obtain ⟨hB, m1, m2⟩ := normal_mantissa n h0 h
  have hle : n / 2 ^ k ≤ n := Nat.div_le_self _ _
  unfold Double.dyadic Double.toSizeT
  simp only [Bool.false_eq_true, if_false]
  by_cases he : 0 ≤ (bits n : Int) - 53 + -(k : Int)
  · have hk : k = 0 := by omega
    have hb : bits n = 53 := by omega
    subst hk
    rw [if_pos he, hb]
    simp only [Nat.sub_self, pow_zero, Nat.mul_one, Nat.div_one]
    have : ((53 : Nat) : Int) - 53 + -((0 : Nat) : Int) = 0 := by norm_num
    rw [this]
    simp only [Int.toNat_zero, pow_zero, Nat.mul_one]
    rw [if_pos (by omega)]
  · rw [if_neg he]
    have hexp : (-((bits n : Int) - 53 + -(k : Int))).toNat = (53 - bits n) + k := by omega
    rw [hexp, pow_add, Nat.mul_comm (2 ^ (53 - bits n)) (2 ^ k),
      Nat.mul_div_mul_right _ _ (by positivity)]
    rw [if_pos (by omega)]

theorem mul_dyadic (a b : Nat) (ha : 0 < a) (hb : 0 < b) (hab : a * b < 2 ^ 53) :
    Double.mul (Double.dyadic false a 0) (Double.dyadic false b 0) = Double.dyadic false (a * b) 0 := by
  have ha53 : a < 2 ^ 53 := lt_of_le_of_lt (Nat.le_mul_of_pos_right a hb) hab
  have hb53 : b < 2 ^ 53 := lt_of_le_of_lt (Nat.le_mul_of_pos_left b ha) hab
  unfold Double.dyadic
  have hx := mul_exact false false (a * 2 ^ (53 - bits a)) (b * 2 ^ (53 - bits b))
    ((bits a : Int) - 53 + 0) ((bits b : Int) - 53 + 0) (a * b) 0 (Nat.mul_pos ha hb) hab
    (by norm_num) (by norm_num)
    (by rw [dyadic_val a 0 ha ha53, dyadic_val b 0 hb hb53]; push_cast; ring)
  simpa [Double.dyadic] using hx

theorem div8_dyadic (a : Nat) (ha : 0 < a) (ha53 : a < 2 ^ 53) :
    Double.div (Double.dyadic false a 0) (Double.ofNat 8) = some (Double.dyadic false a (-3)) := by
  rw [ofNat_dyadic 8 (by norm_num) (by norm_num)]
  unfold Double.dyadic
  have hx := div_exact false false (a * 2 ^ (53 - bits a)) (8 * 2 ^ (53 - bits 8))
    ((bits a : Int) - 53 + 0) ((bits 8 : Int) - 53 + 0) a (-3) (by positivity) ha ha53
    (by norm_num) (by norm_num)
    (by
      rw [dyadic_val a 0 ha ha53, dyadic_val 8 0 (by norm_num) (by norm_num)]
      rw [zpow_neg]
      norm_num
      ring)
  simpa [Double.dyadic] using hx

theorem le0_dyadic (n : Nat) (j : Int) (h0 : 0 < n) (h : n < 2 ^ 53) :
    (Double.dyadic false n j).le0 = false := by
  obtain ⟨-, m1, -⟩ := normal_mantissa n h0 h
  unfold Double.dyadic Double.le0
  have : n * 2 ^ (53 - bits n) ≠ 0 := by omega
  simp [this]

/-- The truncated value is positive exactly when the `double` is at least 1. -/
theorem toSizeT_pos_iff (x : Double) (t : Nat) (h : x.toSizeT = some t) :
    ∃ q, x.value = some q ∧ (0 < t ↔ 1 ≤ q) := by
  cases x with
  | inf s => simp [Double.toSizeT] at h
  | nan => simp [Double.toSizeT] at h
  | finite neg m e =>
    refine ⟨_, rfl, ?_⟩
    have h1 : (if neg = true then
        (if (if 0 ≤ e then m * 2 ^ e.toNat else m / 2 ^ (-e).toNat) = 0 then some 0 else none)
        else if (if 0 ≤ e then m * 2 ^ e.toNat else m / 2 ^ (-e).toNat) < 2 ^ 64
          then some (if 0 ≤ e then m * 2 ^ e.toNat else m / 2 ^ (-e).toNat) else none)
        = some t := h
    have hval : (0 < (if 0 ≤ e then m * 2 ^ e.toNat else m / 2 ^ (-e).toNat) ↔
        1 ≤ (m : ℚ) * (2 : ℚ) ^ e) := by
      by_cases he : 0 ≤ e
      · obtain ⟨n, rfl⟩ := Int.eq_ofNat_of_zero_le he
        rw [if_pos he, Int.toNat_ofNat, zpow_natCast]
        have : ((m * 2 ^ n : Nat) : ℚ) = (m : ℚ) * 2 ^ n := by push_cast; ring
        rw [← this, Nat.one_le_cast]
        omega
      · obtain ⟨n, hn⟩ : ∃ n : Nat, e = -(n : Int) := ⟨(-e).toNat, by omega⟩
        subst hn
        rw [if_neg he, neg_neg, Int.toNat_ofNat, zpow_neg, zpow_natCast]
        have h2 : (0 : ℚ) < 2 ^ n := by positivity
        rw [Nat.div_pos_iff (by positivity), ← div_eq_mul_inv, le_div_iff₀ h2, one_mul]
        constructor
        · intro hh
          have : ((2 ^ n : Nat) : ℚ) ≤ m := by exact_mod_cast hh
          simpa using this
        · intro hh
          have : ((2 ^ n : Nat) : ℚ) ≤ m := by simpa using hh
          exact_mod_cast this
    generalize (if 0 ≤ e then m * 2 ^ e.toNat else m / 2 ^ (-e).toNat) = t0 at h1 hval
    cases neg with
    | true =>
      rw [if_pos rfl] at h1
      by_cases ht : t0 = 0
      · rw [if_pos ht] at h1
        have : t = 0 := (Option.some.inj h1).symm
        subst this
        have hq : (-1 : ℚ) * (m : ℚ) * (2 : ℚ) ^ e ≤ 0 := by
          have : (0 : ℚ) ≤ (m : ℚ) * (2 : ℚ) ^ e := by positivity
          linarith
        simp only [if_true]
        constructor
        · intro h0; omega
        · intro h1; linarith
      · rw [if_neg ht] at h1
        cases h1
    | false =>
      rw [if_neg (by decide)] at h1
      by_cases ht : t0 < 2 ^ 64
      · rw [if_pos ht] at h1
        have : t = t0 := (Option.some.inj h1).symm
        subst this
        simp only [Bool.false_eq_true, if_false, one_mul]
        exact hval
      · rw [if_neg ht] at h1
        cases h1

namespace NoiseEmitter

/-- A returning `ParseArgs` has run its bitrate and duration blocks to the end. -/
theorem parseArgs_ok (lib : Lib) (argv : List (List Char)) (arg : Arg)
    (h : ParseArgs lib argv = .ok arg) :
    parseBitrate lib (argv.getD 4 []) 0 = .ok arg.byterate ∧
    parseDuration lib (argv.getD 5 []) = .ok arg.duration := by
  unfold ParseArgs at h
  split at h
  · cases h
  · split at h
    · cases h
    · split at h
      · cases h
      · split at h
        · cases h
        · split at h
          · cases h
          · split at h
            · cases h
            · cases h
              constructor <;> assumption

/-- A failing bitrate block makes `ParseArgs` fail. -/
theorem parseArgs_bitrate_error (lib : Lib) (argv : List (List Char)) (f : Failure)
    (hb : parseBitrate lib (argv.getD 4 []) 0 = .error f) (arg : Arg) :
    ParseArgs lib argv ≠ .ok arg := by
  intro h
  rw [(parseArgs_ok lib argv arg h).1] at hb
  cases hb

/-- C6: the bitrate block throws "Invalid bitrate." for every argument that does not start
with a number (`stod` finds nothing to convert), for every argument whose value is `<= 0`,
and for every argument that has characters after the number and ends in a character outside
`G g M m K k`; with such a bitrate argument `ParseArgs` yields no configuration. -/
theorem bitrate_rejected (lib : Lib) (argv : List (List Char)) (byterate0 : Nat)
    (h : lib.stod (argv.getD 4 []) = .invalid_argument ∨
      ∃ v num, lib.stod (argv.getD 4 []) = .ok v num ∧
        (v.le0 = true ∨
          (num < (argv.getD 4 []).length ∧
            (argv.getD 4 []).getD ((argv.getD 4 []).length - 1) (Char.ofNat 0)
              ∉ ['G', 'g', 'M', 'm', 'K', 'k']))) :
    parseBitrate lib (argv.getD 4 []) byterate0 = .error .invalidBitrate ∧
    ∀ arg, ParseArgs lib argv ≠ .ok arg := by
  have key : ∀ b0, parseBitrate lib (argv.getD 4 []) b0 = .error .invalidBitrate := by
    intro b0
    unfold parseBitrate
    rcases h with h | ⟨v, num, h, hv⟩
    · rw [h]
    · rw [h]
      simp only []
      rcases hv with hv | ⟨hnum, hlast⟩
      · rw [if_pos (Or.inl hv)]
      · by_cases hc : v.le0 = true ∨ num < lastIndexOf (argv.getD 4 [])
        · rw [if_pos hc]
        · rw [if_neg hc]
          have hlen : (argv.getD 4 []).length ≠ 0 := by omega
          have hli : lastIndexOf (argv.getD 4 []) = (argv.getD 4 []).length - 1 := by
            unfold lastIndexOf; rw [if_neg hlen]
          have hnum2 : num = lastIndexOf (argv.getD 4 []) := by
            rw [hli]
            rw [hli] at hc
            omega
          rw [if_pos hnum2, hli]
          simp only [List.mem_cons, List.mem_singleton, not_or, List.not_mem_nil,
            or_false] at hlast
          have hs : scaleBySuffix ((argv.getD 4 []).getD ((argv.getD 4 []).length - 1)
              (Char.ofNat 0)) v = none := by
            unfold scaleBySuffix
            rw [if_neg (by tauto), if_neg (by tauto), if_neg (by tauto)]
          rw [hs]
  exact ⟨key byterate0, fun arg => parseArgs_bitrate_error lib argv _ (key 0) arg⟩

/-- Witness for C6: the bitrate argument `1x`. -/
theorem bitrate_rejected_witness :
    parseBitrate testLib (["emitter".toList, "127.0.0.1".toList, "5000".toList, "tcp".toList,
        "1x".toList, "1".toList].getD 4 []) 0 = .error .invalidBitrate ∧
    ∀ arg, ParseArgs testLib ["emitter".toList, "127.0.0.1".toList, "5000".toList, "tcp".toList,
        "1x".toList, "1".toList] ≠ .ok arg :=
  bitrate_rejected testLib ["emitter".toList, "127.0.0.1".toList, "5000".toList, "tcp".toList,
      "1x".toList, "1".toList] 0
    (Or.inr ⟨Double.finite false (2 ^ 52) (-52), 1, by decide, Or.inr ⟨by decide, by decide⟩⟩)

set_option maxRecDepth 100000 in
/-- C5, at the failing input: with the bitrate argument `1000` (no suffix) `ParseArgs`
returns, and the byte rate is left at 0, not set to `1000 / 8 = 125`. -/
theorem bitrate_without_suffix :
    ParseArgs testLib ["emitter".toList, "127.0.0.1".toList, "5000".toList, "tcp".toList,
        "1000".toList, "1".toList] =
      .ok { sin_addr := 2130706433, sin_port := 34835, port := 5000, socketType := 1,
            byterate := 0, duration := 1000 } ∧
    stod "1000".toList = .ok (Double.ofNat 1000) 4 ∧ 1000 / 8 = 125 := by
  refine ⟨by rfl, by decide, by decide⟩

/-- C13 (as amended): for every duration argument that `ParseArgs` accepts, read by `stoul`
as `n`, the configured duration is the `int` product of `n` narrowed to `int` and 1000 (both
modulo `2 ^ 32`); it is exactly `n * 1000` whenever `n * 1000` fits an `int`
(`n ≤ 2147483`). -/
theorem duration_milliseconds (lib : Lib) (argv : List (List Char)) (arg : Arg) (n idx : Nat)
    (h : ParseArgs lib argv = .ok arg) (hs : lib.stoul (argv.getD 5 []) = .ok n idx) :
    arg.duration = toInt32 (toInt32 n * 1000) ∧ 0 < arg.duration ∧
    (n ≤ 2147483 → arg.duration = n * 1000) := by
  have hd := (parseArgs_ok lib argv arg h).2
  unfold parseDuration ParseInt at hd
  rw [hs] at hd
  by_cases hlen : idx < (argv.getD 5 []).length
  · simp only [if_pos hlen] at hd
    cases hd
  · simp only [if_neg hlen] at hd
    by_cases hle : toInt32 (toInt32 (n : Int) * 1000) ≤ 0
    · rw [if_pos hle] at hd
      cases hd
    · rw [if_neg hle] at hd
      have hd2 : toInt32 (toInt32 (n : Int) * 1000) = arg.duration := Except.ok.inj hd
      refine ⟨hd2.symm, by omega, fun hn => ?_⟩
      rw [← hd2]
      unfold toInt32
      omega

set_option maxRecDepth 100000 in
/-- Witness for C13: a duration of 10 seconds. -/
theorem duration_milliseconds_witness :
    (10000 : Int) = toInt32 (toInt32 (10 : Nat) * 1000) ∧ (0 : Int) < 10000 ∧
    ((10 : Nat) ≤ 2147483 → (10000 : Int) = (10 : Nat) * 1000) :=
  duration_milliseconds testLib ["emitter".toList, "127.0.0.1".toList, "5000".toList,
      "tcp".toList, "1K".toList, "10".toList]
    { sin_addr := 2130706433, sin_port := 34835, port := 5000, socketType := 1,
      byterate := 125, duration := 10000 } 10 2 (by rfl) (by decide)

set_option maxRecDepth 100000 in
/-- C13 as stated fails: the duration argument `4294968` (seconds) is accepted and the
configured duration is 704 ms, because `4294968 * 1000` wraps modulo `2 ^ 32`. -/
theorem duration_counterexample :
    ParseArgs testLib ["emitter".toList, "127.0.0.1".toList, "5000".toList, "tcp".toList,
        "1K".toList, "4294968".toList] =
      .ok { sin_addr := 2130706433, sin_port := 34835, port := 5000, socketType := 1,
            byterate := 125, duration := 704 } ∧
    stoul "4294968".toList = .ok 4294968 7 ∧ (704 : Int) ≠ 4294968 * 1000 := by
  refine ⟨by rfl, by decide, by decide⟩

theorem d1000_dyadic : d1000 = Double.dyadic false 1000 0 :=
  ofNat_dyadic 1000 (by norm_num) (by norm_num)

/-- Scaling a whole number of bits per second by the multiplier of the suffix is exact
below `2 ^ 53`. -/
theorem scaleBySuffix_whole (c : Char) (n m : Nat)
    (hsuf : ((c = 'G' ∨ c = 'g') ∧ m = 1000 * 1000 * 1000) ∨ ((c = 'M' ∨ c = 'm') ∧ m = 1000 * 1000) ∨
      ((c = 'K' ∨ c = 'k') ∧ m = 1000))
    (hpos : 0 < n) (hfit : n * m < 2 ^ 53) :
    scaleBySuffix c (Double.dyadic false n 0) = some (Double.dyadic false (n * m) 0) := by
  have hM : d1000.mul d1000 = Double.dyadic false (1000 * 1000) 0 := by
    rw [d1000_dyadic]; exact mul_dyadic 1000 1000 (by norm_num) (by norm_num) (by norm_num)
  have hG : (d1000.mul d1000).mul d1000 = Double.dyadic false (1000 * 1000 * 1000) 0 := by
    rw [hM, d1000_dyadic]
    exact mul_dyadic (1000 * 1000) 1000 (by norm_num) (by norm_num) (by norm_num)
  unfold scaleBySuffix
  rcases hsuf with ⟨hc, rfl⟩ | ⟨hc, rfl⟩ | ⟨hc, rfl⟩
  · rw [if_pos hc, hG, mul_dyadic n _ hpos (by norm_num) hfit]
  · have h1 : ¬ (c = 'G' ∨ c = 'g') := by rcases hc with rfl | rfl <;> decide
    rw [if_neg h1, if_pos hc, hM, mul_dyadic n _ hpos (by norm_num) hfit]
  · have h1 : ¬ (c = 'G' ∨ c = 'g') := by rcases hc with rfl | rfl <;> decide
    have h2 : ¬ (c = 'M' ∨ c = 'm') := by rcases hc with rfl | rfl <;> decide
    rw [if_neg h1, if_neg h2, if_pos hc, d1000_dyadic, mul_dyadic n _ hpos (by norm_num) hfit]

set_option maxRecDepth 100000 in
/-- C4 (as amended): for every bitrate argument from which `stod` reads a positive whole
number `v` (exactly, as the `double` of `v`) followed by exactly one suffix character from
G/g, M/m, K/k, with `v * m < 2 ^ 53` for the multiplier `m = 10^9, 10^6, 10^3` of the suffix,
the configured byte rate is `floor(v * m / 8)`; in particular `1M` gives 125000 and `2G` gives
250000000. -/
theorem bitrate_with_suffix (lib : Lib) (buf : List Char) (byterate0 n m : Nat) (c : Char)
    (hstod : lib.stod buf = .ok (Double.ofNat n) (buf.length - 1)) (hne : buf ≠ [])
    (hlast : buf.getD (buf.length - 1) (Char.ofNat 0) = c)
    (hsuf : ((c = 'G' ∨ c = 'g') ∧ m = 1000 * 1000 * 1000) ∨ ((c = 'M' ∨ c = 'm') ∧ m = 1000 * 1000) ∨
      ((c = 'K' ∨ c = 'k') ∧ m = 1000))
    (hpos : 0 < n) (hfit : n * m < 2 ^ 53) :
    parseBitrate lib buf byterate0 = .ok (n * m / 8) ∧
    parseBitrate testLib "1M".toList 0 = .ok 125000 ∧
    parseBitrate testLib "2G".toList 0 = .ok 250000000 := by
  refine ⟨?_, by rfl, by rfl⟩
  have hm : 0 < m := by
    rcases hsuf with ⟨-, rfl⟩ | ⟨-, rfl⟩ | ⟨-, rfl⟩ <;> norm_num
  have hn53 : n < 2 ^ 53 := lt_of_le_of_lt (Nat.le_mul_of_pos_right n hm) hfit
  have hlen : buf.length ≠ 0 := by
    intro h0; exact hne (List.length_eq_zero.mp h0)
  have hli : lastIndexOf buf = buf.length - 1 := by unfold lastIndexOf; rw [if_neg hlen]
  have hts := toSizeT_dyadic (n * m) 3 (Nat.mul_pos hpos hm) hfit
  unfold parseBitrate
  rw [hstod, ofNat_dyadic n hpos hn53]
  simp only [hli, le0_dyadic n 0 hpos hn53, Bool.false_eq_true, lt_irrefl, or_self, if_false,
    if_true, hlast, scaleBySuffix_whole c n m hsuf hpos hfit]
  have h8 : Double.ofNat CHAR_BIT = Double.ofNat 8 := rfl
  rw [h8, div8_dyadic (n * m) (Nat.mul_pos hpos hm) hfit]
  simp only []
  have : (-3 : Int) = -((3 : Nat) : Int) := by norm_num
  rw [this, hts]
  norm_num

set_option maxRecDepth 100000 in
/-- Witness for C4: the bitrate argument `1M`. -/
theorem bitrate_with_suffix_witness :
    parseBitrate testLib "1M".toList 0 = .ok (1 * (1000 * 1000) / 8) ∧
    parseBitrate testLib "1M".toList 0 = .ok 125000 ∧
    parseBitrate testLib "2G".toList 0 = .ok 250000000 :=
  bitrate_with_suffix testLib "1M".toList 0 1 (1000 * 1000) 'M' (by decide) (by decide)
    (by decide) (Or.inr (Or.inl ⟨Or.inl rfl, rfl⟩)) (by decide) (by decide)

set_option maxRecDepth 100000 in
/-- C4 as stated fails where the `double` arithmetic rounds: for `8.04K` the byte rate is
1004, while `floor(8.04 * 1000 / 8) = 1005` (the `double` nearest to 8.04 lies below it, and
so does its product with 1000). -/
theorem bitrate_rounding_counterexample :
    parseBitrate testLib "8.04K".toList 0 = .ok 1004 ∧
    stod "8.04K".toList = .ok (Double.ofRatio false 804 100) 4 ∧
    804 * 1000 / (100 * 8) = 1005 := by
  refine ⟨by rfl, by decide, by decide⟩

theorem parseDuration_pos (lib : Lib) (str : List Char) (d : Int)
    (h : parseDuration lib str = .ok d) : 0 < d := by
  unfold parseDuration at h
  split at h
  · cases h
  · rename_i n _
    simp only [] at h
    by_cases hle : toInt32 (n * 1000) ≤ 0
    · rw [if_pos hle] at h
      cases h
    · rw [if_neg hle] at h
      have := Except.ok.inj h
      omega

/-- C7 (as amended): for every argument vector on which `ParseArgs` returns without throwing,
the duration is `> 0`; and when the bitrate argument ends in a unit suffix (`stod` stops at
its last character), the byte rate is the truncation of the scaled bit rate divided by 8, so
it is `> 0` exactly when that quotient is at least 1 (a bit rate of at least 8 bits/s). -/
theorem parseArgs_invariant (lib : Lib) (argv : List (List Char)) (arg : Arg) (v : Double)
    (num : Nat) (h : ParseArgs lib argv = .ok arg)
    (hs : lib.stod (argv.getD 4 []) = .ok v num) :
    0 < arg.duration ∧
    (num = lastIndexOf (argv.getD 4 []) →
      ∃ scaled bytes q,
        scaleBySuffix ((argv.getD 4 []).getD (lastIndexOf (argv.getD 4 [])) (Char.ofNat 0)) v
          = some scaled ∧
        scaled.div (Double.ofNat 8) = some bytes ∧ bytes.toSizeT = some arg.byterate ∧
        bytes.value = some q ∧ (0 < arg.byterate ↔ 1 ≤ q)) := by
  obtain ⟨hb, hd⟩ := parseArgs_ok lib argv arg h
  refine ⟨parseDuration_pos lib _ _ hd, fun hnum => ?_⟩
  unfold parseBitrate at hb
  rw [hs] at hb
  simp only [] at hb
  by_cases hc : v.le0 = true ∨ num < lastIndexOf (argv.getD 4 [])
  · rw [if_pos hc] at hb
    cases hb
  · rw [if_neg hc, if_pos hnum] at hb
    cases hsc : scaleBySuffix ((argv.getD 4 []).getD (lastIndexOf (argv.getD 4 []))
        (Char.ofNat 0)) v with
    | none => rw [hsc] at hb; cases hb
    | some scaled =>
      rw [hsc] at hb
      simp only [] at hb
      cases hdv : scaled.div (Double.ofNat CHAR_BIT) with
      | none => rw [hdv] at hb; cases hb
      | some bytes =>
        rw [hdv] at hb
        simp only [] at hb
        cases hts : bytes.toSizeT with
        | none => rw [hts] at hb; cases hb
        | some r =>
          rw [hts] at hb
          have hr : r = arg.byterate := Except.ok.inj hb
          subst hr
          obtain ⟨q, hq, hiff⟩ := toSizeT_pos_iff bytes _ hts
          exact ⟨scaled, bytes, q, rfl, hdv, hts, hq, hiff⟩

set_option maxRecDepth 100000 in
/-- Witness for C7: `1K` for one second. -/
theorem parseArgs_invariant_witness :
    (0 : Int) < 1000 ∧
    ((1 : Nat) = lastIndexOf (["emitter".toList, "127.0.0.1".toList, "5000".toList,
        "tcp".toList, "1K".toList, "1".toList].getD 4 []) →
      ∃ scaled bytes q,
        scaleBySuffix ((["emitter".toList, "127.0.0.1".toList, "5000".toList,
            "tcp".toList, "1K".toList, "1".toList].getD 4 []).getD
            (lastIndexOf (["emitter".toList, "127.0.0.1".toList, "5000".toList,
              "tcp".toList, "1K".toList, "1".toList].getD 4 [])) (Char.ofNat 0))
            (Double.finite false (2 ^ 52) (-52))
          = some scaled ∧
        scaled.div (Double.ofNat 8) = some bytes ∧ bytes.toSizeT = some 125 ∧
        bytes.value = some q ∧ (0 < 125 ↔ 1 ≤ q)) :=
  parseArgs_invariant testLib ["emitter".toList, "127.0.0.1".toList, "5000".toList,
      "tcp".toList, "1K".toList, "1".toList]
    { sin_addr := 2130706433, sin_port := 34835, port := 5000, socketType := 1,
      byterate := 125, duration := 1000 } (Double.finite false (2 ^ 52) (-52)) 1
    (by rfl) (by decide)

set_option maxRecDepth 100000 in
/-- C7 as stated fails: the bitrate `0.00390625K` (3.90625 bits per second) is accepted and
the byte rate is 0. -/
theorem parseArgs_invariant_counterexample :
    ParseArgs testLib ["emitter".toList, "127.0.0.1".toList, "5000".toList, "tcp".toList,
        "0.00390625K".toList, "1".toList] =
      .ok { sin_addr := 2130706433, sin_port := 34835, port := 5000, socketType := 1,
            byterate := 0, duration := 1000 } := by
  rfl

end NoiseEmitter
